import Mathlib

/-!
Verification development for the native Ollama streaming core of
obsidian-copilot: the NDJSON stream decoder (`NativeOllamaClient`), the
think-block stream classifier (`ThinkBlockStreamer`), the tool-call
fragment accumulator, the bounded tool-execution loop and the
thinking-only completeness heuristic of `LLMChainRunner`, and the
web-search argument clamping of `ollamaWebSearchTools`.

Strings are embedded as `List Char`.  JavaScript `undefined`-vs-`""`
distinctions are modelled with `Option` or with `[]` where the source
treats both as falsy in every use site.  The `ThinkBlockStreamer`
definitions follow the revision of the class that provides
`getContent` / `setContent` / `analyzeContent` / `clearToolCalls`,
which is the revision the shipped `LLMChainRunner` compiles against.
-/

namespace ObsCopilot

/-- Convert a Lean string literal to the `List Char` representation used
throughout this development. -/
def cs (s : String) : List Char := s.data

/-- JavaScript whitespace characters relevant to `String.prototype.trim`. -/
def isJsWs (c : Char) : Bool :=
  c = ' ' || c = '\t' || c = '\n' || c = '\r' || c = '\x0b' || c = '\x0c'

/-- Model of JavaScript `String.prototype.trim`. -/
def jsTrim (s : List Char) : List Char :=
  (s.dropWhile isJsWs).reverse.dropWhile isJsWs |>.reverse

/-- Index of the first occurrence of `pat` as a contiguous sublist of `s`,
scanning left to right (the search behaviour of `String.indexOf` and of a
regular expression with a literal prefix). -/
def firstIdx (pat : List Char) : List Char → Option Nat
  | [] => if pat = [] then some 0 else none
  | c :: rest =>
    if pat.isPrefixOf (c :: rest) then some 0
    else (firstIdx pat rest).map (· + 1)

/-- Model of JavaScript `String.prototype.includes`. -/
def containsSub (s pat : List Char) : Bool := (firstIdx pat s).isSome

/-- Split a buffer into the complete newline-terminated lines and the
trailing incomplete fragment, mirroring `buffer.split("\n")` followed by
`buffer = lines.pop() || ""` in `NativeOllamaClient.stream`. -/
def splitLinesBuf : List Char → List (List Char) × List Char
  | [] => ([], [])
  | c :: rest =>
    let r := splitLinesBuf rest
    if c = '\n' then ([] :: r.1, r.2)
    else
      match r.1 with
      | [] => ([], c :: r.2)
      | h :: t => ((c :: h) :: t, r.2)

/-- `true` when the list contains no newline character. -/
def noNl (s : List Char) : Bool := !s.contains '\n'

end ObsCopilot

namespace ObsCopilot

/-- Shallow embedding of JSON values (the output of `JSON.parse`).
Numeric literals keep their source text: no claim in this development
depends on numeric-value semantics of JSON numbers. -/
inductive Json where
  | null : Json
  | bool (b : Bool) : Json
  | num (text : List Char) : Json
  | str (s : List Char) : Json
  | arr (xs : List Json) : Json
  | obj (fields : List (List Char × Json)) : Json
deriving Repr

/-- Field lookup on a JSON object (`undefined`, i.e. `none`, otherwise). -/
def jGet (j : Json) (key : List Char) : Option Json :=
  match j with
  | .obj fields => (fields.find? (fun f => f.1 = key)).map (·.2)
  | _ => none

/-- JavaScript truthiness of an optional JSON value (an absent field,
`null`, `false`, `0`, `-0` and `""` are falsy). -/
def jsonTruthy : Option Json → Bool
  | none => false
  | some .null => false
  | some (.bool b) => b
  | some (.num t) => !(t = cs "0" || t = cs "-0" || t = [])
  | some (.str s) => s ≠ []
  | some (.arr _) => true
  | some (.obj _) => true

/-- Skip JSON insignificant whitespace. -/
def skipWs (s : List Char) : List Char :=
  s.dropWhile (fun c => c = ' ' || c = '\t' || c = '\n' || c = '\r')

/-- Decimal digit test, by code point (48–57). -/
def isDigit (c : Char) : Bool := 48 ≤ c.toNat && c.toNat ≤ 57

/-- Hexadecimal digit value, by code-point offset. -/
def hexVal (c : Char) : Option Nat :=
  let n := c.toNat
  if 48 ≤ n && n ≤ 57 then some (n - 48)
  else if 97 ≤ n && n ≤ 102 then some (n - 87)
  else if 65 ≤ n && n ≤ 70 then some (n - 55)
  else none

/-- Parse the body of a JSON string literal (after the opening quote),
returning the decoded characters and the remainder after the closing
quote. -/
def parseStrBody (fuel : Nat) (s : List Char) : Option (List Char × List Char) :=
  match fuel, s with
  | 0, _ => none
  | _, [] => none
  | fuel + 1, c :: rest =>
    if c = '"' then some ([], rest)
    else if c = '\\' then
      match rest with
      | [] => none
      | e :: rest2 =>
        if e = '"' || e = '\\' || e = '/' then
          (parseStrBody fuel rest2).map (fun r => (e :: r.1, r.2))
        else if e = 'n' then (parseStrBody fuel rest2).map (fun r => ('\n' :: r.1, r.2))
        else if e = 't' then (parseStrBody fuel rest2).map (fun r => ('\t' :: r.1, r.2))
        else if e = 'r' then (parseStrBody fuel rest2).map (fun r => ('\r' :: r.1, r.2))
        else if e = 'b' then (parseStrBody fuel rest2).map (fun r => ('\x08' :: r.1, r.2))
        else if e = 'f' then (parseStrBody fuel rest2).map (fun r => ('\x0c' :: r.1, r.2))
        else if e = 'u' then
          match rest2 with
          | h1 :: h2 :: h3 :: h4 :: rest3 =>
            match hexVal h1, hexVal h2, hexVal h3, hexVal h4 with
            | some v1, some v2, some v3, some v4 =>
              let n := (v1 * 16 + v2) * 256 + (v3 * 16 + v4)
              (parseStrBody fuel rest3).map (fun r => (Char.ofNat n :: r.1, r.2))
            | _, _, _, _ => none
          | _ => none
        else none
    else if c.toNat < 32 then none
    else (parseStrBody fuel rest).map (fun r => (c :: r.1, r.2))

/-- Parse a JSON numeric literal, keeping its text. -/
def parseNum (s : List Char) : Option (List Char × List Char) :=
  let (sign, s1) := match s with
    | '-' :: rest => (['-'], rest)
    | _ => (([] : List Char), s)
  let intPart := s1.takeWhile isDigit
  let s2 := s1.dropWhile isDigit
  if intPart = [] then none
  else
    let (frac, s3) :=
      match s2 with
      | '.' :: rest =>
        let ds := rest.takeWhile isDigit
        if ds = [] then ([], s2) else ('.' :: ds, rest.dropWhile isDigit)
      | _ => (([] : List Char), s2)
    let (expPart, s4) :=
      match s3 with
      | 'e' :: rest => (cs "e", rest)
      | 'E' :: rest => (cs "E", rest)
      | _ => (([] : List Char), s3)
    if expPart = [] then some (sign ++ intPart ++ frac, s3)
    else
      let (esign, s5) := match s4 with
        | '+' :: rest => (['+'], rest)
        | '-' :: rest => (['-'], rest)
        | _ => (([] : List Char), s4)
      let eds := s5.takeWhile isDigit
      if eds = [] then none
      else some (sign ++ intPart ++ frac ++ expPart ++ esign ++ eds, s5.dropWhile isDigit)

mutual

/-- Fueled recursive-descent parser for one JSON value. -/
def parseVal (fuel : Nat) (s : List Char) : Option (Json × List Char) :=
  match fuel with
  | 0 => none
  | fuel + 1 =>
    match skipWs s with
    | [] => none
    | c :: rest =>
      if c = '{' then
        parseObjFields fuel rest true
      else if c = '[' then
        parseArrItems fuel rest true
      else if c = '"' then
        (parseStrBody fuel rest).map (fun r => (Json.str r.1, r.2))
      else if c = 't' then
        if (cs "rue").isPrefixOf rest then some (Json.bool true, rest.drop 3) else none
      else if c = 'f' then
        if (cs "alse").isPrefixOf rest then some (Json.bool false, rest.drop 4) else none
      else if c = 'n' then
        if (cs "ull").isPrefixOf rest then some (Json.null, rest.drop 3) else none
      else
        (parseNum (c :: rest)).map (fun r => (Json.num r.1, r.2))

/-- Parse object members; `first` is `true` before any member is read. -/
def parseObjFields (fuel : Nat) (s : List Char) (first : Bool) :
    Option (Json × List Char) :=
  match fuel with
  | 0 => none
  | fuel + 1 =>
    match skipWs s with
    | [] => none
    | c :: rest =>
      if c = '}' then
        if first then some (Json.obj [], rest) else none
      else
        let s1 := if first then c :: rest else
          if c = ',' then rest else []
        match skipWs s1 with
        | '"' :: rest2 =>
          match parseStrBody fuel rest2 with
          | none => none
          | some (key, rest3) =>
            match skipWs rest3 with
            | ':' :: rest4 =>
              match parseVal fuel rest4 with
              | none => none
              | some (v, rest5) =>
                match parseObjRest fuel rest5 with
                | none => none
                | some (fields, rest6) => some (Json.obj ((key, v) :: fields), rest6)
            | _ => none
        | _ => none

/-- Parse the members of an object after the first, returning the raw
field list. -/
def parseObjRest (fuel : Nat) (s : List Char) :
    Option (List (List Char × Json) × List Char) :=
  match fuel with
  | 0 => none
  | fuel + 1 =>
    match skipWs s with
    | '}' :: rest => some ([], rest)
    | ',' :: rest =>
      match skipWs rest with
      | '"' :: rest2 =>
        match parseStrBody fuel rest2 with
        | none => none
        | some (key, rest3) =>
          match skipWs rest3 with
          | ':' :: rest4 =>
            match parseVal fuel rest4 with
            | none => none
            | some (v, rest5) =>
              match parseObjRest fuel rest5 with
              | none => none
              | some (fields, rest6) => some ((key, v) :: fields, rest6)
          | _ => none
      | _ => none
    | _ => none

/-- Parse array items; `first` is `true` before any item is read. -/
def parseArrItems (fuel : Nat) (s : List Char) (first : Bool) :
    Option (Json × List Char) :=
  match fuel with
  | 0 => none
  | fuel + 1 =>
    match skipWs s with
    | [] => none
    | c :: rest =>
      if c = ']' then
        if first then some (Json.arr [], rest) else none
      else
        match parseVal fuel (c :: rest) with
        | none => none
        | some (v, rest2) =>
          match parseArrRest fuel rest2 with
          | none => none
          | some (items, rest3) => some (Json.arr (v :: items), rest3)

/-- Parse the items of an array after the first. -/
def parseArrRest (fuel : Nat) (s : List Char) :
    Option (List Json × List Char) :=
  match fuel with
  | 0 => none
  | fuel + 1 =>
    match skipWs s with
    | ']' :: rest => some ([], rest)
    | ',' :: rest =>
      match parseVal fuel rest with
      | none => none
      | some (v, rest2) =>
        match parseArrRest fuel rest2 with
        | none => none
        | some (items, rest3) => some ((v :: items), rest3)
    | _ => none

end

/-- Model of `JSON.parse`: parse a complete JSON document, requiring only
whitespace after the value; `none` models a thrown `SyntaxError`. -/
def parseJson (s : List Char) : Option Json :=
  match parseVal (2 * s.length + 8) s with
  | none => none
  | some (v, rest) => if skipWs rest = [] then some v else none

/-- Serialize one character of a JSON string per `JSON.stringify`. -/
def escChar (c : Char) : List Char :=
  if c = '"' then cs "\\\""
  else if c = '\\' then cs "\\\\"
  else if c = '\n' then cs "\\n"
  else if c = '\t' then cs "\\t"
  else if c = '\r' then cs "\\r"
  else if c = '\x08' then cs "\\b"
  else if c = '\x0c' then cs "\\f"
  else if c.toNat < 32 then
    cs "\\u00" ++ [(cs "0123456789abcdef").getD (c.toNat / 16) '0',
                   (cs "0123456789abcdef").getD (c.toNat % 16) '0']
  else [c]

mutual

/-- Model of `JSON.stringify` on the embedded JSON values. -/
def stringifyJson : Json → List Char
  | .null => cs "null"
  | .bool true => cs "true"
  | .bool false => cs "false"
  | .num t => t
  | .str s => '"' :: (s.map escChar).flatten ++ ['"']
  | .arr xs => '[' :: stringifyItems xs ++ [']']
  | .obj fields => '\x7b' :: stringifyFields fields ++ ['\x7d']

/-- Comma-separated serialization of array items. -/
def stringifyItems : List Json → List Char
  | [] => []
  | [x] => stringifyJson x
  | x :: y :: rest => stringifyJson x ++ ',' :: stringifyItems (y :: rest)

/-- Comma-separated serialization of object members. -/
def stringifyFields : List (List Char × Json) → List Char
  | [] => []
  | [(k, v)] => '"' :: (k.map escChar).flatten ++ '"' :: ':' :: stringifyJson v
  | (k, v) :: f :: rest =>
    '"' :: (k.map escChar).flatten ++ '"' :: ':' :: stringifyJson v
      ++ ',' :: stringifyFields (f :: rest)

end

end ObsCopilot

namespace ObsCopilot

/-- One item of a Claude-style content array; `thinking none` models an
item of type `thinking` whose `thinking` field is `undefined`. -/
inductive CItem where
  | text (s : List Char)
  | thinking (s : Option (List Char))
  | other
deriving Repr

/-- The `content` field of a streamed chunk: absent, a string, or a
Claude-style array of typed items. -/
inductive ChunkContent where
  | absent
  | str (s : List Char)
  | arr (items : List CItem)
deriving Repr

/-- `Array.isArray(chunk.content)`. -/
def ChunkContent.isArr : ChunkContent → Bool
  | .arr _ => true
  | _ => false

/-- The string content of a chunk, for the branches guarded by
`typeof chunk.content === "string"`. -/
def contentStrOf : ChunkContent → List Char
  | .str s => s
  | _ => []

/-- The item array of a chunk, for the Claude-format branch. -/
def contentItemsOf : ChunkContent → List CItem
  | .arr xs => xs
  | _ => []

/-- One entry of `chunk.tool_call_chunks` (LangChain streaming format).
`[]` in a text field models an absent or empty — in either case falsy —
value, which the accumulator treats identically. -/
structure ToolCallFrag where
  index : Option Nat
  id : List Char
  name : List Char
  args : List Char
deriving Repr

/-- Accumulated state for one tool call index (the `ToolCallChunk`
record built by `ThinkBlockStreamer.handleToolCallChunks`). -/
structure TCChunk where
  id : Option (List Char)
  name : List Char
  args : List Char
deriving Repr

/-- A finalized native tool call: `{id, name, args}` with `args` parsed
from JSON text (`none` models a failed parse). -/
structure NativeToolCall where
  id : Option (List Char)
  name : List Char
  args : Option Json
deriving Repr

/-- A streamed chunk as consumed by `ThinkBlockStreamer.processChunk`.
Optional string fields use `[]` for absent/empty (both falsy at every
use site); `reasoningDetailsNonempty` models
`Array.isArray(additional_kwargs.reasoning_details) && length > 0`. -/
structure Chunk where
  content : ChunkContent
  thinking : List Char
  uThinking : List Char
  reasoningContent : List Char
  deltaReasoning : List Char
  reasoningDetailsNonempty : Bool
  toolCallChunks : List ToolCallFrag
deriving Repr

/-- A chunk carrying only (string or array) content. -/
def Chunk.ofContent (c : ChunkContent) : Chunk := ⟨c, [], [], [], [], false, []⟩

/-- The mutable state of a `ThinkBlockStreamer` instance. -/
structure SState where
  excludeThinking : Bool
  hasOpenThinkBlock : Bool
  fullResponse : List Char
  errorResponse : List Char
  toolCallChunks : List (Nat × TCChunk)
  accumulatedToolCalls : List NativeToolCall

/-- A freshly constructed `ThinkBlockStreamer`. -/
def initState (excludeThinking : Bool) : SState :=
  ⟨excludeThinking, false, [], [], [], []⟩

/-- The `"\n<think>"` text appended when a think block is opened. -/
def thinkOpenTag : List Char := cs "\n<think>"

/-- The `"</think>"` text appended when a think block is closed. -/
def thinkCloseTag : List Char := cs "</think>"

/-- The `<THINKING>` marker inserted by `ollamaAwareFetch`. -/
def mOpen : List Char := cs "<THINKING>"

/-- The `</THINKING>` marker inserted by `ollamaAwareFetch`. -/
def mClose : List Char := cs "</THINKING>"

/-- `this.fullResponse += t`. -/
def appendResp (st : SState) (t : List Char) : SState :=
  { st with fullResponse := st.fullResponse ++ t }

/-- `Map.prototype.get` on the insertion-ordered tool-call-chunk map. -/
def mapLookup (m : List (Nat × TCChunk)) (k : Nat) : Option TCChunk :=
  (m.find? (fun e => e.1 = k)).map (·.2)

/-- `Map.prototype.set`: replace in place when the key exists (JS maps
keep the original insertion position), append otherwise. -/
def mapSet (m : List (Nat × TCChunk)) (k : Nat) (v : TCChunk) : List (Nat × TCChunk) :=
  if (m.find? (fun e => e.1 = k)).isSome
  then m.map (fun e => if e.1 = k then (k, v) else e)
  else m ++ [(k, v)]

/-- Accumulate one tool-call fragment into the map, as in the loop body
of `ThinkBlockStreamer.handleToolCallChunks`: `id` is overwritten when
truthy, `name` and `args` are concatenated when truthy. -/
def updFrag (m : List (Nat × TCChunk)) (tc : ToolCallFrag) : List (Nat × TCChunk) :=
  let idx := tc.index.getD 0
  let ex := (mapLookup m idx).getD ⟨none, [], []⟩
  let ex := if tc.id ≠ [] then { ex with id := some tc.id } else ex
  let ex := if tc.name ≠ [] then { ex with name := ex.name ++ tc.name } else ex
  let ex := if tc.args ≠ [] then { ex with args := ex.args ++ tc.args } else ex
  mapSet m idx ex

/-- `ThinkBlockStreamer.handleToolCallChunks`. -/
def handleToolCallChunks (st : SState) (frags : List ToolCallFrag) : SState :=
  { st with toolCallChunks := frags.foldl updFrag st.toolCallChunks }

/-- One iteration of the `for (const item of content)` loop in
`ThinkBlockStreamer.handleClaudeChunk`: thinking items are appended to
`fullResponse` immediately; text items accumulate in `textContent`. -/
def claudeStep (acc : SState × List Char) (item : CItem) : SState × List Char :=
  let (st, txt) := acc
  match item with
  | .text s => (st, txt ++ s)
  | .thinking o =>
    if st.excludeThinking then (st, txt)
    else
      let st := if !st.hasOpenThinkBlock
        then { appendResp st thinkOpenTag with hasOpenThinkBlock := true } else st
      let st := match o with
        | some s => appendResp st s
        | none => st
      (st, txt)
  | .other => (st, txt)

/-- `ThinkBlockStreamer.handleClaudeChunk`: after the item loop, close
any open think block before appending the accumulated text content. -/
def handleClaudeChunk (st : SState) (items : List CItem) : SState :=
  let r := items.foldl claudeStep (st, [])
  let st := r.1
  let textContent := r.2
  let st := if textContent ≠ [] && st.hasOpenThinkBlock
    then { appendResp st thinkCloseTag with hasOpenThinkBlock := false } else st
  if textContent ≠ [] then appendResp st textContent else st

/-- `ThinkBlockStreamer.handleDeepseekChunk`: append string content
unconditionally, then handle `reasoning_content` inside a think block. -/
def handleDeepseekChunk (st : SState) (c : Chunk) : SState :=
  let st := match c.content with
    | .str s => appendResp st s
    | _ => st
  if c.reasoningContent ≠ [] then
    if st.excludeThinking then st
    else
      let st := if !st.hasOpenThinkBlock
        then { appendResp st thinkOpenTag with hasOpenThinkBlock := true } else st
      appendResp st c.reasoningContent
  else st

/-- `ThinkBlockStreamer.handleOllamaThinkingChunk`:
`additional_kwargs.thinking || additional_kwargs._thinking` appended
inside a think block. -/
def handleOllamaThinkingChunk (st : SState) (c : Chunk) : SState :=
  let ollamaThinking := if c.thinking ≠ [] then c.thinking else c.uThinking
  if ollamaThinking ≠ [] then
    if st.excludeThinking then st
    else
      let st := if !st.hasOpenThinkBlock
        then { appendResp st thinkOpenTag with hasOpenThinkBlock := true } else st
      appendResp st ollamaThinking
  else st

/-- Model of the lazy regular-expression match
`content.match(/<THINKING>([\s\S]*?)<\/THINKING>/)`: locate the first
`<THINKING>` and the first `</THINKING>` after it; return the enclosed
text and the text following the whole match. -/
def matchThinking (s : List Char) : Option (List Char × List Char) :=
  match firstIdx mOpen s with
  | none => none
  | some i =>
    let afterOpen := (s.drop i).drop mOpen.length
    match firstIdx mClose afterOpen with
    | none => none
    | some k => some (afterOpen.take k, (afterOpen.drop k).drop mClose.length)

/-- `ThinkBlockStreamer.handleOllamaThinkingMarkers`: extract the marked
thinking text into a think block, then — when the text after the match
is not whitespace-only — close the block and append that trailing text. -/
def handleOllamaThinkingMarkers (st : SState) (content : List Char) : SState :=
  match matchThinking content with
  | some (thinkingText, remaining) =>
    let st :=
      if !st.excludeThinking then
        let st := if !st.hasOpenThinkBlock
          then { appendResp st thinkOpenTag with hasOpenThinkBlock := true } else st
        appendResp st thinkingText
      else st
    if jsTrim remaining ≠ [] then
      let st := if st.hasOpenThinkBlock
        then { appendResp st thinkCloseTag with hasOpenThinkBlock := false } else st
      appendResp st remaining
    else st
  | none =>
    if content ≠ [] then appendResp st content else st

/-- `ThinkBlockStreamer.handleOpenRouterChunk`: `delta.reasoning` goes
into a think block (dropping any content); otherwise string content
closes an open block and is appended as the answer. -/
def handleOpenRouterChunk (st : SState) (c : Chunk) : SState :=
  if c.deltaReasoning ≠ [] then
    if st.excludeThinking then st
    else
      let st := if !st.hasOpenThinkBlock
        then { appendResp st thinkOpenTag with hasOpenThinkBlock := true } else st
      appendResp st c.deltaReasoning
  else
    let st := if contentStrOf c.content ≠ [] && st.hasOpenThinkBlock
      then { appendResp st thinkCloseTag with hasOpenThinkBlock := false } else st
    if contentStrOf c.content ≠ [] then appendResp st (contentStrOf c.content) else st

/-- The `isThinkingChunk` predicate computed by `processChunk`. -/
def isThinkingChunkPred (c : Chunk) : Bool :=
  c.content.isArr || c.deltaReasoning ≠ [] || c.reasoningDetailsNonempty
    || c.reasoningContent ≠ []

/-- The `hasOllamaThinking` predicate computed by `processChunk`. -/
def hasOllamaThinkingPred (c : Chunk) : Bool :=
  c.thinking ≠ [] || c.uThinking ≠ []

/-- The `hasThinkingMarkers` predicate computed by `processChunk`. -/
def hasThinkingMarkersPred (c : Chunk) : Bool :=
  match c.content with
  | .str s => containsSub s mOpen
  | _ => false

/-- `ThinkBlockStreamer.processChunk`: accumulate tool-call fragments,
close an open think block before non-thinking content, then dispatch on
the chunk format.  (Truncation detection, token-usage extraction and the
UI-update callback have no bearing on any verified claim and are not
modelled.) -/
def processChunk (st : SState) (c : Chunk) : SState :=
  let st1 := handleToolCallChunks st c.toolCallChunks
  let st2 :=
    if st1.hasOpenThinkBlock && !isThinkingChunkPred c && !hasOllamaThinkingPred c
        && !hasThinkingMarkersPred c
    then { appendResp st1 thinkCloseTag with hasOpenThinkBlock := false }
    else st1
  if c.content.isArr then handleClaudeChunk st2 (contentItemsOf c.content)
  else if hasThinkingMarkersPred c then
    handleOllamaThinkingMarkers st2 (contentStrOf c.content)
  else if hasOllamaThinkingPred c then handleOllamaThinkingChunk st2 c
  else if c.reasoningContent ≠ [] then handleDeepseekChunk st2 c
  else if isThinkingChunkPred c then handleOpenRouterChunk st2 c
  else handleDeepseekChunk st2 c

/-- The `content` field of the `StreamingResult` returned by
`ThinkBlockStreamer.close`: force-close any open think block, then
append any recorded error text. -/
def closeContent (st : SState) : List Char :=
  let st := if st.hasOpenThinkBlock then appendResp st thinkCloseTag else st
  let st := if st.errorResponse ≠ [] then appendResp st st.errorResponse else st
  st.fullResponse

/-- Modelled from the spec: `buildToolCallsFromChunks` lives in
`nativeToolCalling.ts`, which is not among the sources; per §4.3 the
finalizer parses the accumulated args text as JSON — an empty string
defaulting to an empty object — and returns the calls in index order.
A failed parse is modelled as `none` args. -/
def buildToolCallsFromChunks (m : List (Nat × TCChunk)) : List NativeToolCall :=
  ((m.mergeSort (fun a b => a.1 ≤ b.1)).map
    (fun e => ⟨e.2.id, e.2.name,
      if e.2.args = [] then some (Json.obj []) else parseJson e.2.args⟩))

/-- `ThinkBlockStreamer.getToolCalls`: pre-accumulated calls win,
otherwise build from the streaming chunks. -/
def getToolCalls (st : SState) : List NativeToolCall :=
  if !st.accumulatedToolCalls.isEmpty then st.accumulatedToolCalls
  else buildToolCallsFromChunks st.toolCallChunks

/-- `ThinkBlockStreamer.hasToolCalls`. -/
def hasToolCalls (st : SState) : Bool :=
  !st.toolCallChunks.isEmpty || !st.accumulatedToolCalls.isEmpty

/-- `ThinkBlockStreamer.clearToolCalls`. -/
def clearToolCalls (st : SState) : SState :=
  { st with toolCallChunks := [], accumulatedToolCalls := [] }

/-- `ThinkBlockStreamer.setContent`. -/
def setContent (st : SState) (content : List Char) : SState :=
  { st with fullResponse := content }

/-- `ThinkBlockStreamer.getContent`. -/
def getContent (st : SState) : List Char := st.fullResponse

/-- A conversation message as held by the tool-execution loop. -/
inductive Msg where
  | system (content : List Char)
  | user (content : List Char)
  | ai (content : List Char) (toolCalls : List NativeToolCall)
  | tool (id : Option (List Char)) (name : List Char) (content : List Char)
deriving Repr

/-- `ThinkBlockStreamer.buildAIMessage`: an assistant message carrying
the accumulated content and tool calls (`createAIMessageWithToolCalls`
is modelled from the spec as exactly that pairing). -/
def buildAIMessage (st : SState) : Msg :=
  .ai st.fullResponse (getToolCalls st)

/-- Modelled from the spec: `createToolResultMessage` lives in
`nativeToolCalling.ts`, which is not among the sources; per §4.4 it
produces one ToolResult message per call carrying the call's id and
name for correlation. -/
def createToolResultMessage (id : Option (List Char)) (name : List Char)
    (content : List Char) : Msg :=
  .tool id name content

end ObsCopilot

namespace ObsCopilot

/-- The tool-call fragment built by `NativeOllamaClient.stream` for the
`idx`-th entry of a frame's `message.tool_calls`: the enumeration index,
the call id, the function name, and the function arguments
re-serialized to JSON text (`tc.function?.arguments || {}`). -/
def fragOfToolCallJson (idx : Nat) (tc : Json) : ToolCallFrag :=
  let fn := jGet tc (cs "function")
  let name := match fn.bind (fun f => jGet f (cs "name")) with
    | some (.str s) => s
    | _ => []
  let argsJ := match fn.bind (fun f => jGet f (cs "arguments")) with
    | some a => if jsonTruthy (some a) then a else Json.obj []
    | none => Json.obj []
  let id := match jGet tc (cs "id") with
    | some (.str s) => s
    | _ => []
  ⟨some idx, id, name, stringifyJson argsJ⟩

/-- The `AIMessageChunk` yielded by `NativeOllamaClient.stream` for one
decoded frame: `content := json.message?.content || ""`,
`additional_kwargs.thinking := json.message?.thinking`, and
`tool_call_chunks` built from `message.tool_calls`.  (Frames whose
`message.content` is neither a string nor falsy do not occur on this
wire and are modelled as the `""` default.) -/
def chunkOfJson (j : Json) : Chunk :=
  let msg := jGet j (cs "message")
  let content : List Char := match msg.bind (fun m => jGet m (cs "content")) with
    | some (.str s) => s
    | _ => []
  let thinking : List Char := match msg.bind (fun m => jGet m (cs "thinking")) with
    | some (.str s) => s
    | _ => []
  let frags := match msg.bind (fun m => jGet m (cs "tool_calls")) with
    | some (.arr xs) => xs.enum.map (fun e => fragOfToolCallJson e.1 e.2)
    | _ => []
  { content := .str content, thinking := thinking, uThinking := [],
    reasoningContent := [], deltaReasoning := [],
    reasoningDetailsNonempty := false, toolCallChunks := frags }

/-- `true` when the line passes the decoder's trim guard and parses as
JSON with a truthy `done` field. -/
def lineIsDone (l : List Char) : Bool :=
  !(jsTrim l).isEmpty &&
    (match parseJson l with
     | some j => jsonTruthy (jGet j (cs "done"))
     | none => false)

/-- The chunk yielded for one NDJSON line: `none` when the line is
whitespace-only (the `!line.trim()` guard) or fails to parse (the
logged-and-skipped catch branch). -/
def lineChunk (l : List Char) : Option Chunk :=
  if jsTrim l = [] then none
  else (parseJson l).map chunkOfJson

/-- The `for (const line of lines)` loop of `NativeOllamaClient.stream`
over one read batch: blank lines are skipped, parse failures are logged
and skipped, and a frame with a truthy `done` breaks out of the batch
without being yielded. -/
def processLines : List (List Char) → List Chunk
  | [] => []
  | l :: rest =>
    if jsTrim l = [] then processLines rest
    else match parseJson l with
      | none => processLines rest
      | some j =>
        if jsonTruthy (jGet j (cs "done")) then []
        else chunkOfJson j :: processLines rest

/-- The outer read loop of `NativeOllamaClient.stream`: append each read
to the buffer, split on newlines keeping the trailing incomplete
fragment, and process the batch of complete lines. -/
def decodeLoop : List Char → List (List Char) → List Chunk
  | _, [] => []
  | buffer, r :: rs =>
    let parts := splitLinesBuf (buffer ++ r)
    processLines parts.1 ++ decodeLoop parts.2 rs

/-- The chunk sequence yielded by `NativeOllamaClient.stream` for a
successful response whose body arrives as the given reads. -/
def streamDecode (reads : List (List Char)) : List Chunk :=
  decodeLoop [] reads

/-- The content analysis produced by `ThinkBlockStreamer.analyzeContent`;
the ratio is exact rational arithmetic in place of JS floating point. -/
structure ContentAnalysis where
  totalLength : Nat
  thinkingLength : Nat
  contentLength : Nat
  thinkingRatio : ℚ

/-- `LLMChainRunner.detectThinkingOnlyResponse`: the level-dependent
threshold test, applied to the analysis that the source obtains from
`streamer.analyzeContent()`.  Defaults (500, 100, 0.9) are overridden to
(200, 50, 0.85) for level `"low"` and (350, 75, 0.88) for `"medium"`;
any other level — including `"high"` and an absent level — keeps the
defaults. -/
def detectThinkingOnlyResponse (analysis : ContentAnalysis)
    (thinkingLevel : Option (List Char)) : Bool :=
  let t : Nat × Nat × ℚ :=
    if thinkingLevel = some (cs "low") then (200, 50, 85/100)
    else if thinkingLevel = some (cs "medium") then (350, 75, 88/100)
    else (500, 100, 9/10)
  decide (analysis.thinkingLength > t.1) &&
    decide (analysis.contentLength < t.2.1) &&
    decide (analysis.thinkingRatio > t.2.2)

/-- Extraction of the text of one recovery-stream chunk in
`recoverFromThinkingOnlyResponse`: string content as is, or the
concatenated `text` items of a Claude-style array. -/
def recoveryChunkText (c : Chunk) : List Char :=
  match c.content with
  | .str s => s
  | .arr items =>
    (items.map (fun it => match it with
      | .text s => s
      | _ => ([] : List Char))).flatten
  | .absent => []

/-- The recovery sub-turn's stream either yields chunks (possibly cut
short by cancellation) or throws. -/
inductive RecoveryOutcome where
  | ok (chunks : List Chunk)
  | err

/-- The transcript held by the streamer that
`LLMChainRunner.recoverFromThinkingOnlyResponse` returns: the original
content stays verbatim unless the sub-turn produced content whose
trimmed length exceeds 10, in which case the recovery content is
appended after a blank line; a thrown error keeps the original. -/
def recoverResultContent (currentContent : List Char)
    (outcome : RecoveryOutcome) : List Char :=
  match outcome with
  | .err => currentContent
  | .ok chunks =>
    let recoveryContent := (chunks.map recoveryChunkText).flatten
    if (jsTrim recoveryContent).length > 10 then
      currentContent ++ cs "\n\n" ++ recoveryContent
    else currentContent

/-- The tool-executor collaborators (`executeOllamaWebSearch` and
`executeOllamaWebFetch` perform HTTP calls), modelled as oracles from
the call's parsed args to a result payload or a thrown error message. -/
structure ToolExec where
  search : Option Json → Except (List Char) Json
  fetch : Option Json → Except (List Char) Json

/-- The per-call body of the tool loop in
`LLMChainRunner.handleNativeOllamaToolCalls`: dispatch on the tool name;
an unknown name yields `{error: "Unknown tool: ..."}` and a thrown
error is caught into `{error: "Tool execution failed: ..."}`. -/
def executeOneTool (env : ToolExec) (tc : NativeToolCall) : Json :=
  if tc.name = cs "web_search" then
    match env.search tc.args with
    | .ok r => r
    | .error m =>
      Json.obj [(cs "error", Json.str (cs "Tool execution failed: " ++ m))]
  else if tc.name = cs "web_fetch" then
    match env.fetch tc.args with
    | .ok r => r
    | .error m =>
      Json.obj [(cs "error", Json.str (cs "Tool execution failed: " ++ m))]
  else Json.obj [(cs "error", Json.str (cs "Unknown tool: " ++ tc.name))]

/-- The `for (const toolCall of toolCalls)` loop: execute each call in
emission order and append one tool-result message per call, carrying the
call's id and name, with the JSON-serialized result as content. -/
def execToolCallsInto (env : ToolExec) (msgs : List Msg)
    (calls : List NativeToolCall) : List Msg :=
  calls.foldl
    (fun ms tc =>
      ms ++ [createToolResultMessage tc.id tc.name
        (stringifyJson (executeOneTool env tc))])
    msgs

/-- `MAX_ITERATIONS` of `handleNativeOllamaToolCalls`. -/
def MAX_ITERATIONS : Nat := 3

/-- The conversation, streamer and iteration counter carried across tool
rounds. -/
structure LoopState where
  msgs : List Msg
  streamer : SState
  iteration : Nat

/-- The `while (iteration < MAX_ITERATIONS && streamer.hasToolCalls())`
loop of `handleNativeOllamaToolCalls`: execute the accumulated calls,
clear the accumulator, re-stream the model's next response (`rounds i`
is what the model streams on round `i`), and push a follow-up assistant
message when the model requested more calls. -/
def toolLoopGo (env : ToolExec) (rounds : Nat → List Chunk)
    (ls : LoopState) : LoopState :=
  if h : ls.iteration < MAX_ITERATIONS ∧ hasToolCalls ls.streamer = true then
    let iteration := ls.iteration + 1
    let calls := getToolCalls ls.streamer
    let msgs := execToolCallsInto env ls.msgs calls
    let st := clearToolCalls ls.streamer
    let st := (rounds iteration).foldl processChunk st
    let msgs := if hasToolCalls st then msgs ++ [buildAIMessage st] else msgs
    toolLoopGo env rounds ⟨msgs, st, iteration⟩
  else ls
termination_by MAX_ITERATIONS - ls.iteration
decreasing_by omega

/-- `LLMChainRunner.handleNativeOllamaToolCalls`: push the assistant
message carrying the initially accumulated tool calls, then run the
bounded loop from iteration 0. -/
def handleNativeOllamaToolCalls (env : ToolExec) (rounds : Nat → List Chunk)
    (msgs : List Msg) (streamer : SState) : LoopState :=
  toolLoopGo env rounds ⟨msgs ++ [buildAIMessage streamer], streamer, 0⟩

/-- The `maxResults` defaulting and clamp of `executeOllamaWebSearch`:
`Math.min(Math.max(maxResults, 1), 10)` with parameter default 5 when
the caller passes `undefined`. -/
def clampedMaxResults (maxResults : Option ℤ) : ℤ :=
  let m := maxResults.getD 5
  min (max m 1) 10

/-- The JSON body `{query, max_results}` POSTed to `/api/web_search` by
`executeOllamaWebSearch`. -/
def webSearchRequestBody (query : List Char) (maxResults : Option ℤ) : Json :=
  Json.obj [(cs "query", Json.str query),
            (cs "max_results", Json.num (toString (clampedMaxResults maxResults)).data)]

end ObsCopilot

namespace ObsCopilot

/-- Join lines into an NDJSON body, each line newline-terminated. -/
def joinNl (ls : List (List Char)) : List Char := (ls.map (· ++ ['\n'])).flatten

/-- `true` when the text contains no `<` character, so that it can
neither contain nor complete a think-block delimiter. -/
def ltFree (s : List Char) : Bool := s.all (fun c => !(c = '<'))

/-- A segment of a fully balanced transcript: plain `<`-free text or one
complete think block with `<`-free body. -/
inductive Seg where
  | txt (s : List Char)
  | blk (s : List Char)
deriving Repr

/-- Render one segment back to transcript text. -/
def renderSeg : Seg → List Char
  | .txt s => s
  | .blk s => thinkOpenTag ++ s ++ thinkCloseTag

/-- Render a segment list back to transcript text. -/
def renderSegs (segs : List Seg) : List Char := (segs.map renderSeg).flatten

/-- Well-formedness of one segment. -/
def segOk : Seg → Bool
  | .txt s => ltFree s
  | .blk s => ltFree s

/-- Grammar of transcripts the streamer can hold: text built from
`<`-free pieces and whole `"\n<think>"` / `"</think>"` delimiters, with
the boolean tracking whether one think block is currently open.  At most
one block is ever open, and delimiters strictly alternate. -/
inductive BalResp : List Char → Bool → Prop
  | nil : BalResp [] false
  | txt {s : List Char} (t : List Char) :
      BalResp s false → ltFree t = true → BalResp (s ++ t) false
  | opn {s : List Char} :
      BalResp s false → BalResp (s ++ thinkOpenTag) true
  | body {s : List Char} (t : List Char) :
      BalResp s true → ltFree t = true → BalResp (s ++ t) true
  | cls {s : List Char} :
      BalResp s true → BalResp (s ++ thinkCloseTag) false

/-- Safety of a chunk's `content` field for the balance invariant: a
marker-bearing string must match the thinking regex with `<`-free
enclosed and trailing text; any other string must be `<`-free; Claude
items must carry `<`-free text. -/
def contentLtSafe : ChunkContent → Bool
  | .str s =>
    if containsSub s mOpen then
      match matchThinking s with
      | some p => ltFree p.1 && ltFree p.2
      | none => false
    else ltFree s
  | .arr items =>
    items.all (fun it =>
      match it with
      | .text s => ltFree s
      | .thinking (some s) => ltFree s
      | _ => true)
  | .absent => true

/-- Safety of a whole chunk for the balance invariant: every text field
the streamer may append is `<`-free (the think-block delimiters are the
streamer's own markup, not upstream payload). -/
def chunkLtSafe (c : Chunk) : Bool :=
  contentLtSafe c.content && ltFree c.thinking && ltFree c.uThinking &&
    ltFree c.reasoningContent && ltFree c.deltaReasoning

/-- The concatenation, in arrival order, of the name fragments of a
tool-call fragment sequence. -/
def accName (frags : List ToolCallFrag) : List Char := (frags.map (·.name)).flatten

/-- The concatenation, in arrival order, of the args fragments of a
tool-call fragment sequence. -/
def accArgs (frags : List ToolCallFrag) : List Char := (frags.map (·.args)).flatten

/-- The id a fragment sequence sets: the last truthy id, set — not
concatenated. -/
def accId (frags : List ToolCallFrag) : Option (List Char) :=
  frags.foldl (fun acc f => if f.id ≠ [] then some f.id else acc) none

end ObsCopilot

namespace ObsCopilot

/-- Appending one element at a time with `foldl` is appending the mapped
list. -/
theorem foldl_append_map {α β : Type} (f : α → β) :
    ∀ (xs : List α) (acc : List β),
      xs.foldl (fun ms tc => ms ++ [f tc]) acc = acc ++ xs.map f := by
  intro xs
  induction xs with
  | nil => intro acc; simp
  | cons x xs ih => intro acc; simp [ih]

/-- C3: the thinking-only detection returns true exactly when
`thinkingLength > minThinking`, `contentLength < maxFinal` and
`thinkingRatio > minRatio`, with thresholds (200, 50, 0.85) for level
`low`, (350, 75, 0.88) for `medium`, and (500, 100, 0.90) for `high` or
any other value; (600, 40, 0.95) triggers at every level and
(100, 500) never triggers. -/
theorem detectThinkingOnly_thresholds :
    (∀ (a : ContentAnalysis) (lvl : Option (List Char)),
        detectThinkingOnlyResponse a lvl = true ↔
          (a.thinkingLength >
              (if lvl = some (cs "low") then 200
               else if lvl = some (cs "medium") then 350 else 500) ∧
           a.contentLength <
              (if lvl = some (cs "low") then 50
               else if lvl = some (cs "medium") then 75 else 100) ∧
           a.thinkingRatio >
              (if lvl = some (cs "low") then (85 / 100 : ℚ)
               else if lvl = some (cs "medium") then 88 / 100 else 9 / 10)))
    ∧ (∀ lvl, detectThinkingOnlyResponse ⟨640, 600, 40, 95 / 100⟩ lvl = true)
    ∧ (∀ lvl total ratio, detectThinkingOnlyResponse ⟨total, 100, 500, ratio⟩ lvl = false) := by
  have hml : ¬ (cs "medium" = cs "low") := by decide
  refine ⟨?_, ?_, ?_⟩
  · intro a lvl
    by_cases h1 : lvl = some (cs "low") <;> by_cases h2 : lvl = some (cs "medium") <;>
      simp [detectThinkingOnlyResponse, h1, h2, hml, and_assoc]
  · intro lvl
    by_cases h1 : lvl = some (cs "low") <;> by_cases h2 : lvl = some (cs "medium") <;>
      simp [detectThinkingOnlyResponse, h1, h2, hml] <;> norm_num
  · intro lvl total ratio
    by_cases h1 : lvl = some (cs "low") <;> by_cases h2 : lvl = some (cs "medium") <;>
      simp [detectThinkingOnlyResponse, h1, h2, hml]

/-- C10: the `max_results` value sent to the web-search endpoint is the
caller's value clamped into [1, 10], defaulting to 5 when omitted;
out-of-range inputs such as 0 and 50 are clamped, not rejected. -/
theorem webSearch_maxResults_clamp :
    (∀ (q : List Char) (m : Option ℤ),
        jGet (webSearchRequestBody q m) (cs "max_results") =
          some (Json.num (toString (clampedMaxResults m)).data))
    ∧ clampedMaxResults none = 5
    ∧ (∀ v : ℤ, 1 ≤ v → v ≤ 10 → clampedMaxResults (some v) = v)
    ∧ (∀ v : ℤ, 1 ≤ clampedMaxResults (some v) ∧ clampedMaxResults (some v) ≤ 10)
    ∧ clampedMaxResults (some 0) = 1 ∧ clampedMaxResults (some 50) = 10 := by
  refine ⟨fun q m => rfl, rfl, ?_, ?_, rfl, rfl⟩
  · intro v h1 h2
    simp only [clampedMaxResults, Option.getD]
    omega
  · intro v
    simp only [clampedMaxResults, Option.getD]
    omega

/-- C10 witness: a concrete in-range value passes through unclamped. -/
theorem webSearch_maxResults_clamp_witness :
    1 ≤ (7 : ℤ) ∧ (7 : ℤ) ≤ 10 ∧ clampedMaxResults (some 7) = 7 :=
  ⟨by norm_num, by norm_num,
    webSearch_maxResults_clamp.2.2.1 7 (by norm_num) (by norm_num)⟩

/-- C4 counterexample: a recovery sub-turn producing exactly 10
characters of new content is discarded — the original transcript is
returned — although the claim's "fewer than 10" cutoff asserts that a
10-character recovery is appended. -/
theorem recoverBoundary_cex :
    recoverResultContent (cs "orig")
        (.ok [Chunk.ofContent (.str (cs "abcdefghij"))]) = cs "orig"
    ∧ (([Chunk.ofContent (.str (cs "abcdefghij"))].map recoveryChunkText).flatten).length = 10
    ∧ ¬ ((([Chunk.ofContent
          (.str (cs "abcdefghij"))].map recoveryChunkText).flatten).length < 10)
    ∧ cs "orig" ≠ cs "orig" ++ cs "\n\n" ++ cs "abcdefghij" := by
  exact ⟨rfl, rfl, by decide, by decide⟩

/-- C4 (amended): the repair result keeps the original transcript
verbatim when the recovery content's trimmed length is at most 10 (in
particular when it is empty or an error occurred), appends the recovery
content after a blank line when the trimmed length exceeds 10, and never
returns a transcript shorter than the pre-repair one. -/
theorem recover_keeps_or_appends :
    ∀ (cur : List Char) (chunks : List Chunk),
      (((jsTrim ((chunks.map recoveryChunkText).flatten)).length ≤ 10 →
          recoverResultContent cur (.ok chunks) = cur)
       ∧ ((jsTrim ((chunks.map recoveryChunkText).flatten)).length > 10 →
          recoverResultContent cur (.ok chunks) =
            cur ++ cs "\n\n" ++ (chunks.map recoveryChunkText).flatten))
      ∧ recoverResultContent cur .err = cur
      ∧ ∀ o : RecoveryOutcome, cur.length ≤ (recoverResultContent cur o).length := by
  intro cur chunks
  refine ⟨⟨?_, ?_⟩, rfl, ?_⟩
  · intro h
    simp only [recoverResultContent]
    rw [if_neg]
    omega
  · intro h
    simp only [recoverResultContent]
    rw [if_pos h]
  · intro o
    cases o with
    | err => simp [recoverResultContent]
    | ok cks =>
      simp only [recoverResultContent]
      split <;> simp

/-- C4 witness: a recovery of more than 10 characters is appended after
a blank line. -/
theorem recover_keeps_or_appends_witness :
    recoverResultContent (cs "orig")
        (.ok [Chunk.ofContent (.str (cs "here is the answer"))]) =
      cs "orig" ++ cs "\n\n" ++ cs "here is the answer" := by
  have h := ((recover_keeps_or_appends (cs "orig")
    [Chunk.ofContent (.str (cs "here is the answer"))]).1).2 (by decide)
  exact h.trans (by rfl)

/-- C8: a thrown tool execution or an unknown tool name never aborts the
loop — every call still yields exactly one tool-result message carrying
its id and name, in order, with a structured `{error: message}` payload
substituted as the result. -/
theorem toolExec_error_wrapping :
    ∀ (env : ToolExec) (msgs : List Msg) (calls : List NativeToolCall),
      execToolCallsInto env msgs calls =
        msgs ++ calls.map (fun tc => createToolResultMessage tc.id tc.name
          (stringifyJson (executeOneTool env tc)))
      ∧ (∀ tc : NativeToolCall, tc.name ≠ cs "web_search" → tc.name ≠ cs "web_fetch" →
          executeOneTool env tc =
            Json.obj [(cs "error", Json.str (cs "Unknown tool: " ++ tc.name))])
      ∧ (∀ (tc : NativeToolCall) (m : List Char), tc.name = cs "web_search" →
          env.search tc.args = .error m →
          executeOneTool env tc =
            Json.obj [(cs "error", Json.str (cs "Tool execution failed: " ++ m))])
      ∧ (∀ (tc : NativeToolCall) (m : List Char), tc.name = cs "web_fetch" →
          env.fetch tc.args = .error m →
          executeOneTool env tc =
            Json.obj [(cs "error", Json.str (cs "Tool execution failed: " ++ m))]) := by
  intro env msgs calls
  refine ⟨foldl_append_map _ calls msgs, ?_, ?_, ?_⟩
  · intro tc h1 h2
    simp [executeOneTool, h1, h2]
  · intro tc m h1 h2
    simp [executeOneTool, h1, h2]
  · intro tc m h1 h2
    simp [executeOneTool, h1, h2,
      (show ¬ (cs "web_fetch" = cs "web_search") from by decide)]

/-- C8 witness: a `web_search` call whose executor throws still yields
its tool-result message with the wrapped error, and the next call (an
unknown tool) is still processed. -/
theorem toolExec_error_wrapping_witness :
    execToolCallsInto
        ⟨fun _ => .error (cs "boom"), fun _ => .ok Json.null⟩ []
        [⟨some (cs "id1"), cs "web_search", none⟩, ⟨none, cs "mystery", none⟩] =
      [Msg.tool (some (cs "id1")) (cs "web_search")
          (cs "\x7b\"error\":\"Tool execution failed: boom\"\x7d"),
       Msg.tool none (cs "mystery")
          (cs "\x7b\"error\":\"Unknown tool: mystery\"\x7d")] := by
  have h := (toolExec_error_wrapping
    ⟨fun _ => .error (cs "boom"), fun _ => .ok Json.null⟩ []
    [⟨some (cs "id1"), cs "web_search", none⟩, ⟨none, cs "mystery", none⟩]).1
  exact h.trans (by rfl)

end ObsCopilot

namespace ObsCopilot

/-- The loop never raises the iteration counter beyond the ceiling. -/
theorem toolLoopGo_iter_le (env : ToolExec) (rounds : Nat → List Chunk) :
    ∀ (n : Nat) (ls : LoopState), MAX_ITERATIONS - ls.iteration ≤ n →
      ls.iteration ≤ MAX_ITERATIONS →
      (toolLoopGo env rounds ls).iteration ≤ MAX_ITERATIONS := by
  intro n
  induction n with
  | zero =>
    intro ls h1 h2
    rw [toolLoopGo]
    have : ¬ (ls.iteration < MAX_ITERATIONS ∧ hasToolCalls ls.streamer = true) := by
      intro hc
      omega
    rw [dif_neg this]
    exact h2
  | succ n ih =>
    intro ls h1 h2
    rw [toolLoopGo]
    by_cases hc : ls.iteration < MAX_ITERATIONS ∧ hasToolCalls ls.streamer = true
    · rw [dif_pos hc]
      apply ih
      · simp only []
        omega
      · simp only []
        omega
    · rw [dif_neg hc]
      exact h2

/-- C2: however many tool calls the model keeps emitting on each
re-invocation, the tool-execution loop runs its body at most
`MAX_ITERATIONS = 3` times and returns the accumulated state (a total
function: no error path). -/
theorem toolLoop_at_most_three_rounds :
    ∀ (env : ToolExec) (rounds : Nat → List Chunk) (msgs : List Msg) (st : SState),
      (handleNativeOllamaToolCalls env rounds msgs st).iteration ≤ 3
      ∧ MAX_ITERATIONS = 3 := by
  intro env rounds msgs st
  refine ⟨?_, rfl⟩
  have h := toolLoopGo_iter_le env rounds MAX_ITERATIONS
    ⟨msgs ++ [buildAIMessage st], st, 0⟩ (Nat.sub_le _ _) (Nat.zero_le _)
  exact h

end ObsCopilot

namespace ObsCopilot

/-- One fragment folded into a singleton map with its own index updates
the entry in place, concatenating `name` and `args` and overwriting a
truthy `id`. -/
theorem updFrag_single (i : Nat) (c : TCChunk) (f : ToolCallFrag)
    (hf : f.index.getD 0 = i) :
    updFrag [(i, c)] f =
      [(i, ⟨if f.id = [] then c.id else some f.id,
            c.name ++ f.name, c.args ++ f.args⟩)] := by
  by_cases hid : f.id = [] <;> by_cases hn : f.name = [] <;> by_cases ha : f.args = [] <;>
    simp [updFrag, mapLookup, mapSet, hf, hid, hn, ha]

/-- One fragment folded into the empty map creates the entry. -/
theorem updFrag_nil (i : Nat) (f : ToolCallFrag) (hf : f.index.getD 0 = i) :
    updFrag [] f =
      [(i, ⟨if f.id = [] then none else some f.id, f.name, f.args⟩)] := by
  by_cases hid : f.id = [] <;> by_cases hn : f.name = [] <;> by_cases ha : f.args = [] <;>
    simp [updFrag, mapLookup, mapSet, hf, hid, hn, ha]

/-- Folding a same-index fragment sequence over a singleton map
concatenates all names and args and keeps the last truthy id. -/
theorem fold_updFrag_single (i : Nat) :
    ∀ (frags : List ToolCallFrag) (c : TCChunk),
      (∀ f ∈ frags, f.index.getD 0 = i) →
      frags.foldl updFrag [(i, c)] =
        [(i, ⟨frags.foldl (fun acc f => if f.id ≠ [] then some f.id else acc) c.id,
              c.name ++ accName frags, c.args ++ accArgs frags⟩)] := by
  intro frags
  induction frags with
  | nil => intro c _; simp [accName, accArgs]
  | cons f rest ih =>
    intro c hall
    have hf : f.index.getD 0 = i := hall f (List.mem_cons_self f rest)
    have hrest : ∀ g ∈ rest, g.index.getD 0 = i :=
      fun g hg => hall g (List.mem_cons_of_mem f hg)
    rw [List.foldl_cons, updFrag_single i c f hf, ih _ hrest]
    by_cases hid : f.id = [] <;>
      simp [hid, accName, accArgs, List.append_assoc]

/-- C5: for any sequence of tool-call fragments sharing one index,
however the name and args strings are split across fragments,
accumulation followed by finalization yields exactly one tool call whose
name and args text are the concatenations of the fragments in arrival
order (the id is set, not concatenated), with the args text parsed as
JSON and an empty args text parsed as the empty object — so the result
depends only on the concatenations, not on the split points. -/
theorem toolCall_fragment_accumulation :
    ∀ (ex : Bool) (i : Nat) (frags : List ToolCallFrag),
      frags ≠ [] → (∀ f ∈ frags, f.index.getD 0 = i) →
      getToolCalls (handleToolCallChunks (initState ex) frags) =
        [⟨accId frags, accName frags,
          if accArgs frags = [] then some (Json.obj [])
          else parseJson (accArgs frags)⟩] := by
  intro ex i frags hne hall
  match frags, hne with
  | f :: rest, _ =>
    have hf : f.index.getD 0 = i := hall f (List.mem_cons_self f rest)
    have hrest : ∀ g ∈ rest, g.index.getD 0 = i :=
      fun g hg => hall g (List.mem_cons_of_mem f hg)
    have hmap : (f :: rest).foldl updFrag ([] : List (Nat × TCChunk)) =
        [(i, ⟨accId (f :: rest), accName (f :: rest), accArgs (f :: rest)⟩)] := by
      rw [List.foldl_cons, updFrag_nil i f hf, fold_updFrag_single i rest _ hrest]
      have hid : (if f.id = [] then none else some f.id) =
          (if f.id ≠ [] then some f.id else none) := by
        by_cases hc : f.id = [] <;> simp [hc]
      simp only [accId, accName, accArgs, List.foldl_cons, List.map_cons,
        List.flatten_cons, hid]
    simp only [handleToolCallChunks, initState, getToolCalls, hmap]
    simp [buildToolCallsFromChunks]

/-- C5 witness: the name `web_search` and the args object split across
two fragments of index 0 finalize to the single fully concatenated,
JSON-parsed tool call. -/
theorem toolCall_fragment_accumulation_witness :
    getToolCalls (handleToolCallChunks (initState false)
        [⟨some 0, [], cs "web_", cs "\x7b\"qu"⟩,
         ⟨some 0, cs "call_1", cs "search", cs "ery\":\"x\"\x7d"⟩]) =
      [⟨some (cs "call_1"), cs "web_search",
        some (Json.obj [(cs "query", Json.str (cs "x"))])⟩] := by
  have h := toolCall_fragment_accumulation false 0
    [⟨some 0, [], cs "web_", cs "\x7b\"qu"⟩,
     ⟨some 0, cs "call_1", cs "search", cs "ery\":\"x\"\x7d"⟩]
    (by simp) (by decide)
  exact h.trans (by rfl)

end ObsCopilot

namespace ObsCopilot

/-- Splitting a buffer that starts with one newline-free line peels that
line off. -/
theorem splitLinesBuf_line (s : List Char) :
    ∀ (l : List Char), noNl l = true →
      splitLinesBuf (l ++ '\n' :: s) =
        (l :: (splitLinesBuf s).1, (splitLinesBuf s).2) := by
  intro l
  induction l with
  | nil => intro _; simp [splitLinesBuf]
  | cons c l ih =>
    intro h
    have hc : ¬ (c = '\n') := by
      simp [noNl] at h
      exact fun hcc => h.1 (by rw [hcc])
    have hl : noNl l = true := by
      simp [noNl] at h ⊢
      exact h.2
    simp only [List.cons_append, splitLinesBuf, List.append_eq]
    rw [ih hl]
    simp [if_neg hc]

/-- Splitting a fully newline-terminated body yields its lines and an
empty remainder buffer. -/
theorem splitLinesBuf_joinNl :
    ∀ (ls : List (List Char)), (∀ l ∈ ls, noNl l = true) →
      splitLinesBuf (joinNl ls) = (ls, []) := by
  intro ls
  induction ls with
  | nil => intro _; rfl
  | cons l ls ih =>
    intro h
    have hl : noNl l = true := h l (List.mem_cons_self l ls)
    have hls : ∀ g ∈ ls, noNl g = true := fun g hg => h g (List.mem_cons_of_mem l hg)
    have : joinNl (l :: ls) = l ++ '\n' :: joinNl ls := by
      simp [joinNl]
    rw [this, splitLinesBuf_line (joinNl ls) l hl, ih hls]

/-- A batch without any done frame decodes line by line: blank and
malformed lines are skipped, each valid line contributes its frame, in
arrival order. -/
theorem processLines_no_done :
    ∀ (ls : List (List Char)), (∀ l ∈ ls, lineIsDone l = false) →
      processLines ls = ls.filterMap lineChunk := by
  intro ls
  induction ls with
  | nil => intro _; rfl
  | cons l ls ih =>
    intro h
    have hl : lineIsDone l = false := h l (List.mem_cons_self l ls)
    have hls : ∀ g ∈ ls, lineIsDone g = false := fun g hg => h g (List.mem_cons_of_mem l hg)
    by_cases ht : jsTrim l = []
    · simp only [processLines, if_pos ht, List.filterMap_cons, lineChunk, ht, ih hls]
      rfl
    · cases hp : parseJson l with
      | none =>
        simp only [processLines, if_neg ht, hp, List.filterMap_cons, lineChunk, ih hls]
        rfl
      | some j =>
        have hdone : jsonTruthy (jGet j (cs "done")) = false := by
          simp only [lineIsDone, hp, Bool.and_eq_false_iff] at hl
          rcases hl with hl | hl
          · exfalso
            simp [List.isEmpty_iff] at hl
            exact ht hl
          · exact hl
        simp only [processLines, if_neg ht, hp, hdone, List.filterMap_cons, lineChunk,
          ih hls]
        rfl

/-- C6: a line that fails to parse as JSON is skipped without aborting
the stream and without affecting any other line — a newline-terminated
body (without done frames) decodes to exactly the frames of its valid
lines, in arrival order. -/
theorem ndjson_line_fault_tolerance :
    ∀ (ls : List (List Char)),
      (∀ l ∈ ls, noNl l = true) →
      (∀ l ∈ ls, lineIsDone l = false) →
      streamDecode [joinNl ls] = ls.filterMap lineChunk := by
  intro ls h1 h2
  show processLines (splitLinesBuf ([] ++ joinNl ls)).1
      ++ decodeLoop (splitLinesBuf ([] ++ joinNl ls)).2 [] = ls.filterMap lineChunk
  rw [List.nil_append, splitLinesBuf_joinNl ls h1]
  simp [processLines_no_done ls h2, decodeLoop]

/-- C6 witness: the malformed line `{not json` between two valid lines
yields exactly the two frames of the valid lines, in original order. -/
theorem ndjson_line_fault_tolerance_witness :
    streamDecode [joinNl
        [cs "\x7b\"message\":\x7b\"content\":\"valid\"\x7d\x7d",
         cs "\x7bnot json",
         cs "\x7b\"message\":\x7b\"content\":\"also valid\"\x7d\x7d"]] =
      [Chunk.ofContent (.str (cs "valid")), Chunk.ofContent (.str (cs "also valid"))]
    ∧ parseJson (cs "\x7bnot json") = none := by
  have h := ndjson_line_fault_tolerance
    [cs "\x7b\"message\":\x7b\"content\":\"valid\"\x7d\x7d",
     cs "\x7bnot json",
     cs "\x7b\"message\":\x7b\"content\":\"also valid\"\x7d\x7d"]
    (by decide) (by decide)
  exact ⟨h.trans (by rfl), by rfl⟩

/-- C7 counterexample: the claim asserts a frame with truthy `done` is
itself yielded before the stream ends; on the body below the decoder
yields only the one content frame — the decoded done frame
(`lineChunk` of the done line) is never yielded. -/
theorem done_frame_not_yielded_cex :
    streamDecode [joinNl
        [cs "\x7b\"message\":\x7b\"content\":\"a\"\x7d\x7d", cs "\x7b\"done\":true\x7d"]] =
      [Chunk.ofContent (.str (cs "a"))]
    ∧ lineIsDone (cs "\x7b\"done\":true\x7d") = true
    ∧ lineChunk (cs "\x7b\"done\":true\x7d") = some (Chunk.ofContent (.str [])) := by
  exact ⟨by rfl, by rfl, by rfl⟩

/-- A batch whose lines reach a done frame yields exactly the frames of
the preceding lines and drops the done frame and the rest of the
batch. -/
theorem processLines_done :
    ∀ (pre : List (List Char)) (doneLn : List Char) (rest : List (List Char)),
      (∀ l ∈ pre, lineIsDone l = false) →
      lineIsDone doneLn = true →
      processLines (pre ++ doneLn :: rest) = pre.filterMap lineChunk := by
  intro pre doneLn rest
  induction pre with
  | nil =>
    intro _ hd
    simp only [lineIsDone, Bool.and_eq_true] at hd
    obtain ⟨ht, hb⟩ := hd
    have ht2 : ¬ (jsTrim doneLn = []) := by
      simp [List.isEmpty_iff] at ht
      exact ht
    cases hp : parseJson doneLn with
    | none => rw [hp] at hb; simp at hb
    | some j =>
      have hb2 : jsonTruthy (jGet j (cs "done")) = true := by
        rw [hp] at hb; exact hb
      simp [processLines, ht2, hp, hb2]
  | cons l pre ih =>
    intro h hd
    have hl : lineIsDone l = false := h l (List.mem_cons_self l pre)
    have hpre : ∀ g ∈ pre, lineIsDone g = false := fun g hg => h g (List.mem_cons_of_mem l hg)
    by_cases ht : jsTrim l = []
    · simp [processLines, ht, lineChunk, ih hpre hd]
    · cases hp : parseJson l with
      | none => simp [processLines, ht, hp, lineChunk, ih hpre hd]
      | some j =>
        have hdone : jsonTruthy (jGet j (cs "done")) = false := by
          simp only [lineIsDone, hp, Bool.and_eq_false_iff] at hl
          rcases hl with hl | hl
          · exfalso
            simp [List.isEmpty_iff] at hl
            exact ht hl
          · exact hl
        simp [processLines, ht, hp, hdone, lineChunk, ih hpre hd]

/-- C7 (amended): a frame whose `done` field is truthy ends the decoding
of its read batch without that frame being yielded; all frames before it
are yielded in arrival order with no reordering. -/
theorem done_ends_batch_unyielded :
    ∀ (pre : List (List Char)) (doneLn : List Char) (rest : List (List Char)),
      (∀ l ∈ pre, noNl l = true) → noNl doneLn = true →
      (∀ l ∈ rest, noNl l = true) →
      (∀ l ∈ pre, lineIsDone l = false) →
      lineIsDone doneLn = true →
      streamDecode [joinNl (pre ++ doneLn :: rest)] = pre.filterMap lineChunk := by
  intro pre doneLn rest h1 h2 h3 h4 h5
  have hall : ∀ l ∈ pre ++ doneLn :: rest, noNl l = true := by
    intro l hl
    rcases List.mem_append.mp hl with hl | hl
    · exact h1 l hl
    · rcases List.mem_cons.mp hl with hl | hl
      · rw [hl]; exact h2
      · exact h3 l hl
  show processLines (splitLinesBuf ([] ++ joinNl (pre ++ doneLn :: rest))).1
      ++ decodeLoop (splitLinesBuf ([] ++ joinNl (pre ++ doneLn :: rest))).2 []
      = pre.filterMap lineChunk
  rw [List.nil_append, splitLinesBuf_joinNl _ hall]
  simp [processLines_done pre doneLn rest h4 h5, decodeLoop]

/-- C7 witness (for the amended claim): one content frame, then a done
frame, then a trailing frame in the same batch — only the content frame
is yielded. -/
theorem done_ends_batch_unyielded_witness :
    streamDecode [joinNl
        [cs "\x7b\"message\":\x7b\"content\":\"a\"\x7d\x7d",
         cs "\x7b\"done\":true\x7d",
         cs "\x7b\"message\":\x7b\"content\":\"late\"\x7d\x7d"]] =
      [Chunk.ofContent (.str (cs "a"))] := by
  have h := done_ends_batch_unyielded
    [cs "\x7b\"message\":\x7b\"content\":\"a\"\x7d\x7d"]
    (cs "\x7b\"done\":true\x7d")
    [cs "\x7b\"message\":\x7b\"content\":\"late\"\x7d\x7d"]
    (by decide) (by decide) (by decide) (by decide) (by decide)
  exact h.trans (by rfl)

end ObsCopilot

namespace ObsCopilot

/-- C1: a frame whose content carries a `<THINKING>...</THINKING>` pair
followed by (non-whitespace) trailing answer text appends the enclosed
text inside a think block (opening one if needed), then closes the
block, then appends the trailing answer text outside any block — the
trailing answer text is never dropped. -/
theorem thinking_marker_keeps_trailing_answer :
    ∀ (st : SState) (s t rest : List Char),
      st.excludeThinking = false →
      matchThinking s = some (t, rest) →
      jsTrim rest ≠ [] →
      (processChunk st (Chunk.ofContent (.str s))).fullResponse =
        st.fullResponse ++ (if st.hasOpenThinkBlock then [] else thinkOpenTag)
          ++ t ++ thinkCloseTag ++ rest
      ∧ (processChunk st (Chunk.ofContent (.str s))).hasOpenThinkBlock = false := by
  intro st s t rest hex hmt htrim
  have hm : containsSub s mOpen = true := by
    unfold containsSub
    unfold matchThinking at hmt
    cases hfi : firstIdx mOpen s with
    | none => rw [hfi] at hmt; simp at hmt
    | some i => simp
  constructor <;>
    by_cases hob : st.hasOpenThinkBlock <;>
      simp [processChunk, Chunk.ofContent, handleToolCallChunks, isThinkingChunkPred,
        hasOllamaThinkingPred, hasThinkingMarkersPred, ChunkContent.isArr, contentStrOf,
        contentItemsOf, handleOllamaThinkingMarkers, hm, hmt, hex, htrim, hob,
        appendResp, List.append_assoc]

/-- C1 witness: a single frame carrying both the marked thinking text
and the start of the answer yields the think block immediately followed
by the answer. -/
theorem thinking_marker_keeps_trailing_answer_witness :
    (processChunk (initState false)
        (Chunk.ofContent (.str (cs "<THINKING>plan</THINKING>The answer")))).fullResponse =
      cs "\n<think>plan</think>The answer" := by
  have h := thinking_marker_keeps_trailing_answer (initState false)
    (cs "<THINKING>plan</THINKING>The answer") (cs "plan") (cs "The answer")
    rfl (by rfl) (by decide)
  exact h.1.trans (by rfl)

end ObsCopilot

namespace ObsCopilot

/-- Transport a balance derivation along an equality of transcripts. -/
theorem balResp_of_eq {s' : List Char} {b : Bool} (h : BalResp s' b)
    {s : List Char} (he : s' = s) : BalResp s b := he ▸ h

/-- `<`-freedom is preserved by concatenation. -/
theorem ltFree_append {a b : List Char} (ha : ltFree a = true) (hb : ltFree b = true) :
    ltFree (a ++ b) = true := by
  simp [ltFree] at *
  exact ⟨ha, hb⟩

/-- Appending `<`-free text preserves balance in either block state. -/
theorem bal_append {full : List Char} {b : Bool} (t : List Char)
    (hb : BalResp full b) (ht : ltFree t = true) : BalResp (full ++ t) b := by
  cases b
  · exact BalResp.txt t hb ht
  · exact BalResp.body t hb ht

/-- `handleOllamaThinkingMarkers` preserves the balance invariant and
leaves the error text unchanged. -/
theorem bal_handleOllamaThinkingMarkers (st : SState) (content : List Char)
    (hb : BalResp st.fullResponse st.hasOpenThinkBlock)
    (hsafe : (match matchThinking content with
              | some p => ltFree p.1 && ltFree p.2
              | none => ltFree content) = true) :
    BalResp (handleOllamaThinkingMarkers st content).fullResponse
      (handleOllamaThinkingMarkers st content).hasOpenThinkBlock
    ∧ (handleOllamaThinkingMarkers st content).errorResponse = st.errorResponse := by
  cases hmt : matchThinking content with
  | none =>
    rw [hmt] at hsafe
    have heq : handleOllamaThinkingMarkers st content =
        if content = [] then st else appendResp st content := by
      simp only [handleOllamaThinkingMarkers, hmt]
      by_cases hc : content = [] <;> simp [hc]
    by_cases hc : content = []
    · rw [heq, if_pos hc]
      exact ⟨hb, rfl⟩
    · rw [heq, if_neg hc]
      exact ⟨bal_append content hb hsafe, rfl⟩
  | some p =>
    obtain ⟨t, r⟩ := p
    rw [hmt] at hsafe
    simp only [Bool.and_eq_true] at hsafe
    obtain ⟨hlt, hlr⟩ := hsafe
    by_cases hex : st.excludeThinking = true
    · by_cases htr : jsTrim r = []
      · have heq : handleOllamaThinkingMarkers st content = st := by
          simp only [handleOllamaThinkingMarkers, hmt]
          simp [hex, htr]
        rw [heq]
        exact ⟨hb, rfl⟩
      · cases hob : st.hasOpenThinkBlock with
        | true =>
          have heq : handleOllamaThinkingMarkers st content =
              { st with fullResponse := (st.fullResponse ++ thinkCloseTag) ++ r,
                        hasOpenThinkBlock := false } := by
            simp only [handleOllamaThinkingMarkers, hmt]
            simp [hex, htr, hob, appendResp]
          rw [heq]
          exact ⟨BalResp.txt r (BalResp.cls (hob ▸ hb)) hlr, rfl⟩
        | false =>
          have heq : handleOllamaThinkingMarkers st content =
              { st with fullResponse := st.fullResponse ++ r,
                        hasOpenThinkBlock := false } := by
            simp only [handleOllamaThinkingMarkers, hmt]
            simp [hex, htr, hob, appendResp]
          rw [heq]
          exact ⟨BalResp.txt r (hob ▸ hb) hlr, rfl⟩
    · have hex2 : st.excludeThinking = false := by
        cases hexv : st.excludeThinking
        · rfl
        · exact absurd hexv hex
      by_cases htr : jsTrim r = []
      · cases hob : st.hasOpenThinkBlock with
        | true =>
          have heq : handleOllamaThinkingMarkers st content =
              { st with fullResponse := st.fullResponse ++ t,
                        hasOpenThinkBlock := true } := by
            simp only [handleOllamaThinkingMarkers, hmt]
            simp [hex2, htr, hob, appendResp]
          rw [heq]
          exact ⟨BalResp.body t (hob ▸ hb) hlt, rfl⟩
        | false =>
          have heq : handleOllamaThinkingMarkers st content =
              { st with fullResponse := (st.fullResponse ++ thinkOpenTag) ++ t,
                        hasOpenThinkBlock := true } := by
            simp only [handleOllamaThinkingMarkers, hmt]
            simp [hex2, htr, hob, appendResp]
          rw [heq]
          exact ⟨BalResp.body t (BalResp.opn (hob ▸ hb)) hlt, rfl⟩
      · cases hob : st.hasOpenThinkBlock with
        | true =>
          have heq : handleOllamaThinkingMarkers st content =
              { st with fullResponse := (((st.fullResponse ++ t) ++ thinkCloseTag) ++ r),
                        hasOpenThinkBlock := false } := by
            simp only [handleOllamaThinkingMarkers, hmt]
            simp [hex2, htr, hob, appendResp]
          rw [heq]
          exact ⟨BalResp.txt r (BalResp.cls (BalResp.body t (hob ▸ hb) hlt)) hlr, rfl⟩
        | false =>
          have heq : handleOllamaThinkingMarkers st content =
              { st with fullResponse :=
                  ((((st.fullResponse ++ thinkOpenTag) ++ t) ++ thinkCloseTag) ++ r),
                        hasOpenThinkBlock := false } := by
            simp only [handleOllamaThinkingMarkers, hmt]
            simp [hex2, htr, hob, appendResp]
          rw [heq]
          exact ⟨BalResp.txt r
            (BalResp.cls (BalResp.body t (BalResp.opn (hob ▸ hb)) hlt)) hlr, rfl⟩

end ObsCopilot

namespace ObsCopilot

/-- `handleDeepseekChunk` preserves the balance invariant. -/
theorem bal_handleDeepseekChunk (st : SState) (c : Chunk)
    (hb : BalResp st.fullResponse st.hasOpenThinkBlock)
    (hcs : ltFree (contentStrOf c.content) = true)
    (hrc : ltFree c.reasoningContent = true) :
    BalResp (handleDeepseekChunk st c).fullResponse
      (handleDeepseekChunk st c).hasOpenThinkBlock
    ∧ (handleDeepseekChunk st c).errorResponse = st.errorResponse := by
  have step1 : ∀ (st' : SState), BalResp st'.fullResponse st'.hasOpenThinkBlock →
      st'.excludeThinking = st.excludeThinking →
      st'.errorResponse = st.errorResponse →
      BalResp (if c.reasoningContent ≠ [] then
          (if st'.excludeThinking then st'
           else appendResp (if !st'.hasOpenThinkBlock then
              { appendResp st' thinkOpenTag with hasOpenThinkBlock := true }
             else st') c.reasoningContent)
        else st').fullResponse
        (if c.reasoningContent ≠ [] then
          (if st'.excludeThinking then st'
           else appendResp (if !st'.hasOpenThinkBlock then
              { appendResp st' thinkOpenTag with hasOpenThinkBlock := true }
             else st') c.reasoningContent)
        else st').hasOpenThinkBlock
      ∧ (if c.reasoningContent ≠ [] then
          (if st'.excludeThinking then st'
           else appendResp (if !st'.hasOpenThinkBlock then
              { appendResp st' thinkOpenTag with hasOpenThinkBlock := true }
             else st') c.reasoningContent)
        else st').errorResponse = st.errorResponse := by
    intro st' hb' hex' herr'
    by_cases hrcE : c.reasoningContent = []
    · simp [hrcE]
      exact ⟨hb', herr'⟩
    · by_cases hexT : st'.excludeThinking = true
      · simp [hrcE, hexT]
        exact ⟨hb', herr'⟩
      · have hexF : st'.excludeThinking = false := by
          cases hexv : st'.excludeThinking
          · rfl
          · exact absurd hexv hexT
        cases hob : st'.hasOpenThinkBlock with
        | true =>
          simp only [hrcE, hexF, hob, appendResp, ne_eq, not_false_iff, if_true,
            Bool.not_true, Bool.false_eq_true, if_false, if_neg]
          refine ⟨?_, herr'⟩
          exact BalResp.body c.reasoningContent (hob ▸ hb') hrc
        | false =>
          simp only [hrcE, hexF, hob, appendResp, ne_eq, not_false_iff, if_true,
            Bool.not_false, if_pos]
          refine ⟨?_, herr'⟩
          exact BalResp.body c.reasoningContent (BalResp.opn (hob ▸ hb')) hrc
  cases hcc : c.content with
  | str s =>
    have hcs2 : ltFree s = true := by rw [hcc] at hcs; exact hcs
    have heq : handleDeepseekChunk st c =
        (if c.reasoningContent ≠ [] then
          (if (appendResp st s).excludeThinking then appendResp st s
           else appendResp (if !(appendResp st s).hasOpenThinkBlock then
              { appendResp (appendResp st s) thinkOpenTag with hasOpenThinkBlock := true }
             else appendResp st s) c.reasoningContent)
        else appendResp st s) := by
      simp only [handleDeepseekChunk, hcc]
    rw [heq]
    exact step1 (appendResp st s) (bal_append s hb hcs2) rfl rfl
  | absent =>
    have heq : handleDeepseekChunk st c =
        (if c.reasoningContent ≠ [] then
          (if st.excludeThinking then st
           else appendResp (if !st.hasOpenThinkBlock then
              { appendResp st thinkOpenTag with hasOpenThinkBlock := true }
             else st) c.reasoningContent)
        else st) := by
      simp only [handleDeepseekChunk, hcc]
    rw [heq]
    exact step1 st hb rfl rfl
  | arr items =>
    have heq : handleDeepseekChunk st c =
        (if c.reasoningContent ≠ [] then
          (if st.excludeThinking then st
           else appendResp (if !st.hasOpenThinkBlock then
              { appendResp st thinkOpenTag with hasOpenThinkBlock := true }
             else st) c.reasoningContent)
        else st) := by
      simp only [handleDeepseekChunk, hcc]
    rw [heq]
    exact step1 st hb rfl rfl

end ObsCopilot

namespace ObsCopilot

/-- `handleOllamaThinkingChunk` preserves the balance invariant. -/
theorem bal_handleOllamaThinkingChunk (st : SState) (c : Chunk)
    (hb : BalResp st.fullResponse st.hasOpenThinkBlock)
    (hth : ltFree c.thinking = true) (huth : ltFree c.uThinking = true) :
    BalResp (handleOllamaThinkingChunk st c).fullResponse
      (handleOllamaThinkingChunk st c).hasOpenThinkBlock
    ∧ (handleOllamaThinkingChunk st c).errorResponse = st.errorResponse := by
  have main : ∀ (ot : List Char), ltFree ot = true → ot ≠ [] →
      BalResp (if st.excludeThinking then st
          else appendResp (if !st.hasOpenThinkBlock then
            { appendResp st thinkOpenTag with hasOpenThinkBlock := true } else st) ot).fullResponse
        (if st.excludeThinking then st
          else appendResp (if !st.hasOpenThinkBlock then
            { appendResp st thinkOpenTag with hasOpenThinkBlock := true } else st) ot).hasOpenThinkBlock
      ∧ (if st.excludeThinking then st
          else appendResp (if !st.hasOpenThinkBlock then
            { appendResp st thinkOpenTag with hasOpenThinkBlock := true } else st) ot).errorResponse
        = st.errorResponse := by
    intro ot hlt _
    by_cases hexT : st.excludeThinking = true
    · simp only [hexT, if_true]
      exact ⟨hb, by trivial⟩
    · have hexF : st.excludeThinking = false := by
        cases hexv : st.excludeThinking
        · rfl
        · exact absurd hexv hexT
      cases hob : st.hasOpenThinkBlock with
      | true =>
        simp only [hexF, hob, appendResp, Bool.not_true, Bool.false_eq_true, if_false]
        exact ⟨BalResp.body ot (hob ▸ hb) hlt, by trivial⟩
      | false =>
        simp only [hexF, hob, appendResp, Bool.not_false, if_true, Bool.false_eq_true,
          if_false]
        exact ⟨BalResp.body ot (BalResp.opn (hob ▸ hb)) hlt, by trivial⟩
  by_cases hthE : c.thinking = []
  · by_cases huthE : c.uThinking = []
    · have heq : handleOllamaThinkingChunk st c = st := by
        simp only [handleOllamaThinkingChunk]
        simp [hthE, huthE]
      rw [heq]
      exact ⟨hb, rfl⟩
    · have heq : handleOllamaThinkingChunk st c =
          (if st.excludeThinking then st
            else appendResp (if !st.hasOpenThinkBlock then
              { appendResp st thinkOpenTag with hasOpenThinkBlock := true } else st)
              c.uThinking) := by
        simp only [handleOllamaThinkingChunk]
        simp [hthE, huthE]
      rw [heq]
      exact main c.uThinking huth huthE
  · have heq : handleOllamaThinkingChunk st c =
        (if st.excludeThinking then st
          else appendResp (if !st.hasOpenThinkBlock then
            { appendResp st thinkOpenTag with hasOpenThinkBlock := true } else st)
            c.thinking) := by
      simp only [handleOllamaThinkingChunk]
      simp [hthE]
    rw [heq]
    exact main c.thinking hth hthE

/-- `handleOpenRouterChunk` preserves the balance invariant. -/
theorem bal_handleOpenRouterChunk (st : SState) (c : Chunk)
    (hb : BalResp st.fullResponse st.hasOpenThinkBlock)
    (hdr : ltFree c.deltaReasoning = true)
    (hcs : ltFree (contentStrOf c.content) = true) :
    BalResp (handleOpenRouterChunk st c).fullResponse
      (handleOpenRouterChunk st c).hasOpenThinkBlock
    ∧ (handleOpenRouterChunk st c).errorResponse = st.errorResponse := by
  by_cases hdrE : c.deltaReasoning = []
  · by_cases hce : contentStrOf c.content = []
    · have heq : handleOpenRouterChunk st c = st := by
        simp only [handleOpenRouterChunk]
        simp [hdrE, hce]
      rw [heq]
      exact ⟨hb, rfl⟩
    · cases hob : st.hasOpenThinkBlock with
      | true =>
        have heq : handleOpenRouterChunk st c =
            { st with hasOpenThinkBlock := false, fullResponse := (st.fullResponse ++ thinkCloseTag) ++ contentStrOf c.content } := by
          simp only [handleOpenRouterChunk]
          simp [hdrE, hce, hob, appendResp]
        rw [heq]
        exact ⟨BalResp.txt _ (BalResp.cls (hob ▸ hb)) hcs, rfl⟩
      | false =>
        have heq : handleOpenRouterChunk st c =
            { st with hasOpenThinkBlock := false, fullResponse := st.fullResponse ++ contentStrOf c.content } := by
          simp only [handleOpenRouterChunk]
          simp [hdrE, hce, hob, appendResp]
        rw [heq]
        exact ⟨BalResp.txt _ (hob ▸ hb) hcs, rfl⟩
  · by_cases hexT : st.excludeThinking = true
    · have heq : handleOpenRouterChunk st c = st := by
        simp only [handleOpenRouterChunk]
        simp [hdrE, hexT]
      rw [heq]
      exact ⟨hb, rfl⟩
    · have hexF : st.excludeThinking = false := by
        cases hexv : st.excludeThinking
        · rfl
        · exact absurd hexv hexT
      cases hob : st.hasOpenThinkBlock with
      | true =>
        have heq : handleOpenRouterChunk st c =
            { st with hasOpenThinkBlock := true, fullResponse := st.fullResponse ++ c.deltaReasoning } := by
          simp only [handleOpenRouterChunk]
          simp [hdrE, hexF, hob, appendResp]
        rw [heq]
        exact ⟨BalResp.body _ (hob ▸ hb) hdr, rfl⟩
      | false =>
        have heq : handleOpenRouterChunk st c =
            { st with hasOpenThinkBlock := true, fullResponse := (st.fullResponse ++ thinkOpenTag) ++ c.deltaReasoning } := by
          simp only [handleOpenRouterChunk]
          simp [hdrE, hexF, hob, appendResp]
        rw [heq]
        exact ⟨BalResp.body _ (BalResp.opn (hob ▸ hb)) hdr, rfl⟩

end ObsCopilot

namespace ObsCopilot

/-- The Claude item loop preserves the balance invariant, keeps the
accumulated text `<`-free, and leaves the error text unchanged. -/
theorem bal_claudeFold :
    ∀ (items : List CItem) (st : SState) (txt : List Char),
      BalResp st.fullResponse st.hasOpenThinkBlock →
      ltFree txt = true →
      (items.all (fun it =>
        match it with
        | .text s => ltFree s
        | .thinking (some s) => ltFree s
        | _ => true)) = true →
      BalResp (items.foldl claudeStep (st, txt)).1.fullResponse
          (items.foldl claudeStep (st, txt)).1.hasOpenThinkBlock
      ∧ ltFree (items.foldl claudeStep (st, txt)).2 = true
      ∧ (items.foldl claudeStep (st, txt)).1.errorResponse = st.errorResponse := by
  intro items
  induction items with
  | nil => intro st txt hb ht _; exact ⟨hb, ht, rfl⟩
  | cons it items ih =>
    intro st txt hb ht hall
    simp only [List.all_cons, Bool.and_eq_true] at hall
    obtain ⟨hit, hrest⟩ := hall
    rw [List.foldl_cons]
    cases it with
    | text s =>
      have heq : claudeStep (st, txt) (.text s) = (st, txt ++ s) := rfl
      rw [heq]
      exact ih st (txt ++ s) hb (ltFree_append ht hit) hrest
    | other =>
      exact ih st txt hb ht hrest
    | thinking o =>
      by_cases hexT : st.excludeThinking = true
      · have heq : claudeStep (st, txt) (.thinking o) = (st, txt) := by
          simp [claudeStep, hexT]
        rw [heq]
        exact ih st txt hb ht hrest
      · have hexF : st.excludeThinking = false := by
          cases hexv : st.excludeThinking
          · rfl
          · exact absurd hexv hexT
        cases hob : st.hasOpenThinkBlock with
        | true =>
          cases o with
          | none =>
            have heq : claudeStep (st, txt) (.thinking none) = (st, txt) := by
              simp [claudeStep, hexF, hob]
            rw [heq]
            exact ih st txt hb ht hrest
          | some s =>
            have heq : claudeStep (st, txt) (.thinking (some s)) =
                ({ st with hasOpenThinkBlock := true,
                           fullResponse := st.fullResponse ++ s }, txt) := by
              simp [claudeStep, hexF, hob, appendResp]
            rw [heq]
            have := ih { st with hasOpenThinkBlock := true,
                                 fullResponse := st.fullResponse ++ s } txt
              (BalResp.body s (hob ▸ hb) hit) ht hrest
            exact this
        | false =>
          cases o with
          | none =>
            have heq : claudeStep (st, txt) (.thinking none) =
                ({ st with hasOpenThinkBlock := true,
                           fullResponse := st.fullResponse ++ thinkOpenTag }, txt) := by
              simp [claudeStep, hexF, hob, appendResp]
            rw [heq]
            exact ih _ txt (BalResp.opn (hob ▸ hb)) ht hrest
          | some s =>
            have heq : claudeStep (st, txt) (.thinking (some s)) =
                ({ st with hasOpenThinkBlock := true,
                           fullResponse := (st.fullResponse ++ thinkOpenTag) ++ s }, txt) := by
              simp [claudeStep, hexF, hob, appendResp]
            rw [heq]
            exact ih _ txt (BalResp.body s (BalResp.opn (hob ▸ hb)) hit) ht hrest

/-- `handleClaudeChunk` preserves the balance invariant. -/
theorem bal_handleClaudeChunk (st : SState) (items : List CItem)
    (hb : BalResp st.fullResponse st.hasOpenThinkBlock)
    (hsafe : (items.all (fun it =>
        match it with
        | .text s => ltFree s
        | .thinking (some s) => ltFree s
        | _ => true)) = true) :
    BalResp (handleClaudeChunk st items).fullResponse
      (handleClaudeChunk st items).hasOpenThinkBlock
    ∧ (handleClaudeChunk st items).errorResponse = st.errorResponse := by
  obtain ⟨hb1, ht1, he1⟩ := bal_claudeFold items st [] hb (by simp [ltFree]) hsafe
  by_cases htc : (items.foldl claudeStep (st, [])).2 = []
  · have heq : handleClaudeChunk st items = (items.foldl claudeStep (st, [])).1 := by
      simp only [handleClaudeChunk]
      simp [htc]
    rw [heq]
    exact ⟨hb1, he1⟩
  · cases hob : (items.foldl claudeStep (st, [])).1.hasOpenThinkBlock with
    | true =>
      have heq : handleClaudeChunk st items =
          { (items.foldl claudeStep (st, [])).1 with
              hasOpenThinkBlock := false,
              fullResponse := ((items.foldl claudeStep (st, [])).1.fullResponse ++ thinkCloseTag) ++ (items.foldl claudeStep (st, [])).2 } := by
        simp only [handleClaudeChunk]
        simp [htc, hob, appendResp]
      rw [heq]
      refine ⟨?_, he1⟩
      exact BalResp.txt _ (BalResp.cls (hob ▸ hb1)) ht1
    | false =>
      have heq : handleClaudeChunk st items =
          { (items.foldl claudeStep (st, [])).1 with
              hasOpenThinkBlock := false,
              fullResponse := (items.foldl claudeStep (st, [])).1.fullResponse ++ (items.foldl claudeStep (st, [])).2 } := by
        simp only [handleClaudeChunk]
        simp [htc, hob, appendResp]
      rw [heq]
      refine ⟨?_, he1⟩
      exact BalResp.txt _ (hob ▸ hb1) ht1

/-- `handleToolCallChunks` touches only the fragment map. -/
theorem bal_handleToolCallChunks (st : SState) (frags : List ToolCallFrag)
    (hb : BalResp st.fullResponse st.hasOpenThinkBlock) :
    BalResp (handleToolCallChunks st frags).fullResponse
      (handleToolCallChunks st frags).hasOpenThinkBlock
    ∧ (handleToolCallChunks st frags).errorResponse = st.errorResponse :=
  ⟨hb, rfl⟩

end ObsCopilot

namespace ObsCopilot

/-- `processChunk` preserves the balance invariant for any `<`-safe
chunk, and leaves the error text unchanged. -/
theorem bal_processChunk (st : SState) (c : Chunk)
    (hb : BalResp st.fullResponse st.hasOpenThinkBlock)
    (hsafe : chunkLtSafe c = true) :
    BalResp (processChunk st c).fullResponse (processChunk st c).hasOpenThinkBlock
    ∧ (processChunk st c).errorResponse = st.errorResponse := by
  simp only [chunkLtSafe, Bool.and_eq_true] at hsafe
  obtain ⟨⟨⟨⟨hcs, hth⟩, huth⟩, hrc⟩, hdr⟩ := hsafe
  have hb1 : BalResp (handleToolCallChunks st c.toolCallChunks).fullResponse
      (handleToolCallChunks st c.toolCallChunks).hasOpenThinkBlock := hb
  cases hcc : c.content with
  | arr items =>
    have hall : (items.all (fun it =>
        match it with
        | .text s => ltFree s
        | .thinking (some s) => ltFree s
        | _ => true)) = true := by
      rw [hcc] at hcs
      simpa [contentLtSafe] using hcs
    have heq : processChunk st c =
        handleClaudeChunk (handleToolCallChunks st c.toolCallChunks) items := by
      simp only [processChunk]
      simp [hcc, isThinkingChunkPred, ChunkContent.isArr, contentItemsOf]
    rw [heq]
    obtain ⟨h1, h2⟩ := bal_handleClaudeChunk _ items hb1 hall
    exact ⟨h1, h2⟩
  | str s =>
    by_cases hmk : containsSub s mOpen = true
    · have hmkp : hasThinkingMarkersPred c = true := by
        simp [hasThinkingMarkersPred, hcc, hmk]
      have hsafe2 : (match matchThinking s with
          | some p => ltFree p.1 && ltFree p.2
          | none => ltFree s) = true := by
        rw [hcc] at hcs
        simp only [contentLtSafe, hmk, if_true] at hcs
        cases hmt : matchThinking s with
        | none => rw [hmt] at hcs; simp at hcs
        | some p => rw [hmt] at hcs; exact hcs
      have heq : processChunk st c =
          handleOllamaThinkingMarkers (handleToolCallChunks st c.toolCallChunks) s := by
        simp only [processChunk]
        simp [hcc, hmkp, hasThinkingMarkersPred, ChunkContent.isArr, contentStrOf, hmk]
      rw [heq]
      obtain ⟨h1, h2⟩ := bal_handleOllamaThinkingMarkers _ s hb1 hsafe2
      exact ⟨h1, h2⟩
    · have hcs2 : ltFree s = true := by
        rw [hcc] at hcs
        simpa [contentLtSafe, hmk] using hcs
      by_cases hot : hasOllamaThinkingPred c = true
      · have heq : processChunk st c =
            handleOllamaThinkingChunk (handleToolCallChunks st c.toolCallChunks) c := by
          simp only [processChunk]
          simp [hcc, hasThinkingMarkersPred, hmk, hot, ChunkContent.isArr]
        rw [heq]
        obtain ⟨h1, h2⟩ := bal_handleOllamaThinkingChunk _ c hb1 hth huth
        exact ⟨h1, h2⟩
      · by_cases hrcE : c.reasoningContent = []
        · by_cases hitc : isThinkingChunkPred c = true
          · have heq : processChunk st c =
                handleOpenRouterChunk (handleToolCallChunks st c.toolCallChunks) c := by
              simp only [processChunk]
              simp [hcc, hasThinkingMarkersPred, hmk, hot, hitc, hrcE,
                ChunkContent.isArr]
            rw [heq]
            obtain ⟨h1, h2⟩ := bal_handleOpenRouterChunk _ c hb1 hdr
              (by rw [hcc]; exact hcs2)
            exact ⟨h1, h2⟩
          · cases hob : st.hasOpenThinkBlock with
            | true =>
              have heq : processChunk st c =
                  handleDeepseekChunk
                    { handleToolCallChunks st c.toolCallChunks with
                        hasOpenThinkBlock := false,
                        fullResponse := st.fullResponse ++ thinkCloseTag } c := by
                simp only [processChunk]
                simp [hcc, hasThinkingMarkersPred, hmk, hot, hitc, hrcE, hob,
                  ChunkContent.isArr, handleToolCallChunks, appendResp]
              rw [heq]
              obtain ⟨h1, h2⟩ := bal_handleDeepseekChunk
                { handleToolCallChunks st c.toolCallChunks with
                    hasOpenThinkBlock := false,
                    fullResponse := st.fullResponse ++ thinkCloseTag } c
                (BalResp.cls (hob ▸ hb)) (by rw [hcc]; exact hcs2) hrc
              exact ⟨h1, h2⟩
            | false =>
              have heq : processChunk st c =
                  handleDeepseekChunk (handleToolCallChunks st c.toolCallChunks) c := by
                simp only [processChunk]
                simp [hcc, hasThinkingMarkersPred, hmk, hot, hitc, hrcE, hob,
                  ChunkContent.isArr, handleToolCallChunks]
              rw [heq]
              obtain ⟨h1, h2⟩ := bal_handleDeepseekChunk _ c hb1
                (by rw [hcc]; exact hcs2) hrc
              exact ⟨h1, h2⟩
        · have heq : processChunk st c =
              handleDeepseekChunk (handleToolCallChunks st c.toolCallChunks) c := by
            simp only [processChunk]
            simp [hcc, hasThinkingMarkersPred, hmk, hot, hrcE, isThinkingChunkPred,
              ChunkContent.isArr]
          rw [heq]
          obtain ⟨h1, h2⟩ := bal_handleDeepseekChunk _ c hb1
            (by rw [hcc]; exact hcs2) hrc
          exact ⟨h1, h2⟩
  | absent =>
    have hcs2 : ltFree (contentStrOf c.content) = true := by
      rw [hcc]; simp [contentStrOf, ltFree]
    have hmkp : hasThinkingMarkersPred c = false := by
      simp [hasThinkingMarkersPred, hcc]
    by_cases hot : hasOllamaThinkingPred c = true
    · have heq : processChunk st c =
          handleOllamaThinkingChunk (handleToolCallChunks st c.toolCallChunks) c := by
        simp only [processChunk]
        simp [hcc, hmkp, hot, ChunkContent.isArr]
      rw [heq]
      obtain ⟨h1, h2⟩ := bal_handleOllamaThinkingChunk _ c hb1 hth huth
      exact ⟨h1, h2⟩
    · by_cases hrcE : c.reasoningContent = []
      · by_cases hitc : isThinkingChunkPred c = true
        · have heq : processChunk st c =
              handleOpenRouterChunk (handleToolCallChunks st c.toolCallChunks) c := by
            simp only [processChunk]
            simp [hcc, hmkp, hot, hitc, hrcE, ChunkContent.isArr]
          rw [heq]
          obtain ⟨h1, h2⟩ := bal_handleOpenRouterChunk _ c hb1 hdr hcs2
          exact ⟨h1, h2⟩
        · cases hob : st.hasOpenThinkBlock with
          | true =>
            have heq : processChunk st c =
                handleDeepseekChunk
                  { handleToolCallChunks st c.toolCallChunks with
                      hasOpenThinkBlock := false,
                      fullResponse := st.fullResponse ++ thinkCloseTag } c := by
              simp only [processChunk]
              simp [hcc, hmkp, hot, hitc, hrcE, hob, ChunkContent.isArr,
                handleToolCallChunks, appendResp]
            rw [heq]
            obtain ⟨h1, h2⟩ := bal_handleDeepseekChunk
              { handleToolCallChunks st c.toolCallChunks with
                  hasOpenThinkBlock := false,
                  fullResponse := st.fullResponse ++ thinkCloseTag } c
              (BalResp.cls (hob ▸ hb)) hcs2 hrc
            exact ⟨h1, h2⟩
          | false =>
            have heq : processChunk st c =
                handleDeepseekChunk (handleToolCallChunks st c.toolCallChunks) c := by
              simp only [processChunk]
              simp [hcc, hmkp, hot, hitc, hrcE, hob, ChunkContent.isArr,
                handleToolCallChunks]
            rw [heq]
            obtain ⟨h1, h2⟩ := bal_handleDeepseekChunk _ c hb1 hcs2 hrc
            exact ⟨h1, h2⟩
      · have heq : processChunk st c =
            handleDeepseekChunk (handleToolCallChunks st c.toolCallChunks) c := by
          simp only [processChunk]
          simp [hcc, hmkp, hot, hrcE, isThinkingChunkPred, ChunkContent.isArr]
        rw [heq]
        obtain ⟨h1, h2⟩ := bal_handleDeepseekChunk _ c hb1 hcs2 hrc
        exact ⟨h1, h2⟩

end ObsCopilot

namespace ObsCopilot

/-- Processing any `<`-safe chunk sequence preserves the balance
invariant and the error text. -/
theorem bal_foldProcess :
    ∀ (chunks : List Chunk) (st : SState),
      (∀ c ∈ chunks, chunkLtSafe c = true) →
      BalResp st.fullResponse st.hasOpenThinkBlock →
      BalResp (chunks.foldl processChunk st).fullResponse
        (chunks.foldl processChunk st).hasOpenThinkBlock
      ∧ (chunks.foldl processChunk st).errorResponse = st.errorResponse := by
  intro chunks
  induction chunks with
  | nil => intro st _ hb; exact ⟨hb, rfl⟩
  | cons c chunks ih =>
    intro st hall hb
    obtain ⟨h1, h2⟩ := bal_processChunk st c hb (hall c (List.mem_cons_self c chunks))
    rw [List.foldl_cons]
    obtain ⟨g1, g2⟩ := ih (processChunk st c)
      (fun x hx => hall x (List.mem_cons_of_mem c hx)) h1
    exact ⟨g1, g2.trans h2⟩

/-- `close` force-closes any open block, so the returned content is
balanced with no block left open. -/
theorem bal_closeContent (st : SState)
    (hb : BalResp st.fullResponse st.hasOpenThinkBlock)
    (he : st.errorResponse = []) :
    BalResp (closeContent st) false := by
  cases hob : st.hasOpenThinkBlock with
  | false =>
    have heq : closeContent st = st.fullResponse := by
      simp [closeContent, hob, he, appendResp]
    rw [heq]
    exact hob ▸ hb
  | true =>
    have heq : closeContent st = st.fullResponse ++ thinkCloseTag := by
      simp [closeContent, hob, he, appendResp]
    rw [heq]
    exact BalResp.cls (hob ▸ hb)

/-- Interpretation of the balance grammar: a closed transcript is a
concatenation of well-formed segments; an open one is such a
concatenation followed by a single unterminated block. -/
theorem balResp_render :
    ∀ {s : List Char} {b : Bool}, BalResp s b →
      (b = false → ∃ segs, (∀ g ∈ segs, segOk g = true) ∧ s = renderSegs segs) ∧
      (b = true → ∃ segs pending, (∀ g ∈ segs, segOk g = true) ∧ ltFree pending = true ∧
        s = renderSegs segs ++ (thinkOpenTag ++ pending)) := by
  intro s b h
  induction h with
  | nil =>
    refine ⟨fun _ => ⟨[], ?_, ?_⟩, fun hh => by simp at hh⟩
    · intro g hg; simp at hg
    · simp [renderSegs]
  | txt t hprev hfree ih =>
    obtain ⟨segs, hok, hs⟩ := ih.1 rfl
    refine ⟨fun _ => ⟨segs ++ [.txt t], ?_, ?_⟩, fun hh => by simp at hh⟩
    · intro g hg
      rcases List.mem_append.mp hg with hg | hg
      · exact hok g hg
      · simp at hg; rw [hg]; exact hfree
    · rw [hs]; simp [renderSegs, renderSeg]
  | opn hprev ih =>
    obtain ⟨segs, hok, hs⟩ := ih.1 rfl
    refine ⟨fun hh => by simp at hh, fun _ => ⟨segs, [], hok, by simp [ltFree], ?_⟩⟩
    rw [hs]; simp
  | body t hprev hfree ih =>
    obtain ⟨segs, pending, hok, hp, hs⟩ := ih.2 rfl
    refine ⟨fun hh => by simp at hh,
      fun _ => ⟨segs, pending ++ t, hok, ltFree_append hp hfree, ?_⟩⟩
    rw [hs]; simp [List.append_assoc]
  | cls hprev ih =>
    obtain ⟨segs, pending, hok, hp, hs⟩ := ih.2 rfl
    refine ⟨fun _ => ⟨segs ++ [.blk pending], ?_, ?_⟩, fun hh => by simp at hh⟩
    · intro g hg
      rcases List.mem_append.mp hg with hg | hg
      · exact hok g hg
      · simp at hg; rw [hg]; exact hp
    · rw [hs]; simp [renderSegs, renderSeg, List.append_assoc]

/-- C9: over any processed chunk sequence whose text payloads are free
of the delimiter character, the streamer keeps at most one reasoning
block open (the balance grammar `BalResp`, in which delimiters strictly
alternate), and after `close()` the returned transcript is a
concatenation of plain text segments and complete, well-matched think
blocks — no unmatched `<think>` remains. -/
theorem think_blocks_balanced :
    ∀ (ex : Bool) (chunks : List Chunk),
      (∀ c ∈ chunks, chunkLtSafe c = true) →
      BalResp (chunks.foldl processChunk (initState ex)).fullResponse
        (chunks.foldl processChunk (initState ex)).hasOpenThinkBlock
      ∧ ∃ segs, (∀ g ∈ segs, segOk g = true) ∧
          closeContent (chunks.foldl processChunk (initState ex)) = renderSegs segs := by
  intro ex chunks hall
  have hinit : BalResp (initState ex).fullResponse (initState ex).hasOpenThinkBlock :=
    BalResp.nil
  obtain ⟨h1, h2⟩ := bal_foldProcess chunks (initState ex) hall hinit
  refine ⟨h1, ?_⟩
  have hclosed := bal_closeContent _ h1 h2
  exact (balResp_render hclosed).1 rfl

/-- C9 witness: a reasoning-bearing chunk followed by an answer chunk
yields a balanced transcript after `close()`. -/
theorem think_blocks_balanced_witness :
    BalResp ([⟨.absent, [], [], cs "pondering", [], false, []⟩,
        Chunk.ofContent (.str (cs "The answer"))].foldl processChunk
        (initState false)).fullResponse
      ([⟨.absent, [], [], cs "pondering", [], false, []⟩,
        Chunk.ofContent (.str (cs "The answer"))].foldl processChunk
        (initState false)).hasOpenThinkBlock
    ∧ ∃ segs, (∀ g ∈ segs, segOk g = true) ∧
        closeContent ([⟨.absent, [], [], cs "pondering", [], false, []⟩,
          Chunk.ofContent (.str (cs "The answer"))].foldl processChunk
          (initState false)) = renderSegs segs :=
  think_blocks_balanced false
    [⟨.absent, [], [], cs "pondering", [], false, []⟩,
     Chunk.ofContent (.str (cs "The answer"))] (by decide)

end ObsCopilot
